import Mathlib

/-!
Project-Manager `static/app.js`: view synchronisation.

A shallow embedding of the browser-side script `static/app.js` (drag and drop of task
cards, the `task_updated` push listener and the three refreshers) together with the
slice of the DOM it manipulates.

* The page is a forest of nodes in first-child / next-sibling form.  Elements carry an
  identity tag `key`, their attributes, the `style.width` value and their children.
* Nodes are addressed by child-index paths, the way a JS reference designates one node.
* An `async` function is a function from the outcomes of the requests it awaits to a
  `Run`: the resulting DOM, the ordered list of observable effects (requests issued,
  refreshers invoked, `console.error` lines) and the way its promise settles.
* What the script hands to the browser is kept as the browser takes it: the HTML parser,
  the reading of the selectors built by interpolation and the reading of a width are
  parameters, and the values the script interpolates are the texts the template
  literals render.
-/

namespace ProjectManager

/-! ## JavaScript values read from attributes and payloads -/

/-- The JS values the script interpolates into selectors and URLs: `undefined` (a missing
`dataset` entry or payload field), `null` (the initial `draggedId`) and strings. -/
inductive JSVal where
  | undefined : JSVal
  | null : JSVal
  | str (s : String) : JSVal
deriving DecidableEq, Repr

/-- Template-literal interpolation `${v}`. -/
def JSVal.toStr : JSVal → String
  | .undefined => "undefined"
  | .null => "null"
  | .str s => s

/-- JS truthiness, as tested by `if(card && state)`. -/
def JSVal.truthy : JSVal → Bool
  | .undefined => false
  | .null => false
  | .str s => s != ""

/-- A `dataset` read: the attribute value, or `undefined` when the attribute is absent. -/
def JSVal.ofOption : Option String → JSVal
  | none => .undefined
  | some s => .str s

/-! ## The DOM -/

abbrev Attrs := List (String × String)

/-- A list of sibling nodes.  `text s rest` is a text node followed by `rest`;
`elem key attrs width kids rest` is an element with children `kids` followed by `rest`. -/
inductive Forest where
  | nil : Forest
  | text (s : String) (rest : Forest) : Forest
  | elem (key : Nat) (attrs : Attrs) (width : String) (kids : Forest) (rest : Forest) : Forest
deriving DecidableEq, Repr

/-- One element, detached from its siblings. -/
structure Elem where
  key : Nat
  attrs : Attrs
  width : String
  kids : Forest
deriving DecidableEq, Repr

/-- The value of attribute `name`, if present. -/
def Elem.attr (e : Elem) (name : String) : Option String :=
  e.attrs.lookup name

/-- Put element `e` in front of the siblings `rest`. -/
def Forest.cons (e : Elem) (rest : Forest) : Forest :=
  .elem e.key e.attrs e.width e.kids rest

/-- The first child node when it is an element. -/
def Forest.firstElem : Forest → Option Elem
  | .elem k a w kids _ => some ⟨k, a, w, kids⟩
  | _ => none

/-- A node address: the index among the top-level nodes, then among the children, and
so on. -/
abbrev Path := List Nat

/-- Whether the node at `q` is the node at `p` or one of its descendants. -/
def Path.within : Path → Path → Bool
  | [], _ => true
  | _ :: _, [] => false
  | i :: p, j :: q => i == j && Path.within p q

/-- The element at a path (`none` for a text node or a dangling path). -/
def Forest.get? : Forest → Path → Option Elem
  | .nil, _ => none
  | .text _ _, [] => none
  | .text _ _, 0 :: _ => none
  | .text _ rest, (i + 1) :: p => rest.get? (i :: p)
  | .elem _ _ _ _ _, [] => none
  | .elem k a w kids _, [0] => some ⟨k, a, w, kids⟩
  | .elem _ _ _ kids _, 0 :: j :: p => kids.get? (j :: p)
  | .elem _ _ _ _ rest, (i + 1) :: p => rest.get? (i :: p)

/-- Shift a path found among the following siblings by one position. -/
def Path.bump : Path → Path
  | [] => []
  | i :: p => (i + 1) :: p

/-- The first element in document order satisfying `P` (what `querySelector` and
`getElementById` return), as a path. -/
def Forest.findPath (P : Elem → Bool) : Forest → Option Path
  | .nil => none
  | .text _ rest => (rest.findPath P).map Path.bump
  | .elem k a w kids rest =>
    if P ⟨k, a, w, kids⟩ then some [0]
    else match kids.findPath P with
      | some p => some (0 :: p)
      | none => (rest.findPath P).map Path.bump

/-- The first element in document order that satisfies `P` and has a proper ancestor
satisfying `A` (a descendant-combinator selector `A P`); `inside` tells whether such an
ancestor has already been passed. -/
def Forest.findUnder (A P : Elem → Bool) : Bool → Forest → Option Path
  | _, .nil => none
  | inside, .text _ rest => (rest.findUnder A P inside).map Path.bump
  | inside, .elem k a w kids rest =>
    if inside && P ⟨k, a, w, kids⟩ then some [0]
    else match kids.findUnder A P (inside || A ⟨k, a, w, kids⟩) with
      | some p => some (0 :: p)
      | none => (rest.findUnder A P inside).map Path.bump

/-- Rewrite the element at a path, leaving everything else in place. -/
def Forest.modifyAt (g : Elem → Elem) : Forest → Path → Forest
  | .nil, _ => .nil
  | .text s rest, [] => .text s rest
  | .text s rest, 0 :: _ => .text s rest
  | .text s rest, (i + 1) :: p => .text s (rest.modifyAt g (i :: p))
  | .elem k a w kids rest, [] => .elem k a w kids rest
  | .elem k a w kids rest, [0] => Forest.cons (g ⟨k, a, w, kids⟩) rest
  | .elem k a w kids rest, 0 :: j :: p => .elem k a w (kids.modifyAt g (j :: p)) rest
  | .elem k a w kids rest, (i + 1) :: p => .elem k a w kids (rest.modifyAt g (i :: p))

/-- Detach the node at a path. -/
def Forest.removeAt : Forest → Path → Forest
  | .nil, _ => .nil
  | .text s rest, [] => .text s rest
  | .text _ rest, [0] => rest
  | .text s rest, 0 :: _ :: _ => .text s rest
  | .text s rest, (i + 1) :: p => .text s (rest.removeAt (i :: p))
  | .elem k a w kids rest, [] => .elem k a w kids rest
  | .elem _ _ _ _ rest, [0] => rest
  | .elem k a w kids rest, 0 :: j :: p => .elem k a w (kids.removeAt (j :: p)) rest
  | .elem k a w kids rest, (i + 1) :: p => .elem k a w kids (rest.removeAt (i :: p))

/-- Where the node at `q` is found once the node at `p` has been detached (`q` not
inside `p`). -/
def Path.afterRemoval : Path → Path → Path
  | [], q => q
  | _, [] => []
  | [i], j :: q => if i < j then (j - 1) :: q else j :: q
  | i :: k :: p, j :: q => if i = j then j :: Path.afterRemoval (k :: p) q else j :: q

/-- Errors a DOM call or a property read throws. -/
inductive DomError where
  | syntaxError : DomError
  | hierarchyRequest : DomError
  | typeError : DomError
deriving DecidableEq, Repr

/-- `el.replaceWith(fresh)`: the element at the path gives way to `fresh`. -/
def Forest.replaceWith (f : Forest) (p : Path) (fresh : Elem) : Forest :=
  f.modifyAt (fun _ => fresh) p

/-- `parent.prepend(child)` for two elements of the page: `child` is detached and put in
front of `parent`'s children.  The DOM rejects the call with `HierarchyRequestError` when
`child` is `parent` itself or one of its ancestors. -/
def Forest.prepend (f : Forest) (parent child : Path) : Except DomError Forest :=
  if Path.within child parent then .error .hierarchyRequest
  else match f.get? child with
    | none => .ok f
    | some c =>
      .ok ((f.removeAt child).modifyAt (fun l => { l with kids := Forest.cons c l.kids })
        (Path.afterRemoval child parent))

/-- The first element in document order satisfying `P`, as a value. -/
def Forest.find (P : Elem → Bool) (f : Forest) : Option Elem :=
  (f.findPath P).bind f.get?

/-! ## Selectors -/

/-- ASCII whitespace, which separates the tokens of a `class` attribute. -/
def isSpace (c : Char) : Bool :=
  c.toNat == 32 || c.toNat == 9 || c.toNat == 10 || c.toNat == 12 || c.toNat == 13

/-- Split on whitespace; `cur` is the token being read. -/
def classTokensGo : List Char → List Char → List String
  | cur, [] => if cur.isEmpty then [] else [String.mk cur]
  | cur, c :: cs =>
    if isSpace c then
      (if cur.isEmpty then classTokensGo [] cs else String.mk cur :: classTokensGo [] cs)
    else classTokensGo (cur ++ [c]) cs

/-- The class names of a `class` attribute value. -/
def classTokens (v : String) : List String :=
  classTokensGo [] v.data

/-- The class selector `.c`. -/
def hasClass (c : String) (e : Elem) : Bool :=
  match e.attr "class" with
  | some v => (classTokens v).contains c
  | none => false

/-- The id selector `#i`, also the test of `getElementById(i)`. -/
def hasId (i : String) (e : Elem) : Bool :=
  e.attr "id" == some i

/-- Whether `v` can be put between the double quotes of an attribute selector and still
denote itself: no quote, backslash, line break, form feed or NUL. -/
def cssPlain (v : String) : Bool :=
  v.data.all (fun c => c.toNat != 34 && c.toNat != 92 && c.toNat != 10 && c.toNat != 13
    && c.toNat != 12 && c.toNat != 0)

/-- The first element whose `data-task` attribute is `v`. -/
def taskCard (dom : Forest) (v : String) : Option Path :=
  dom.findPath (fun e => e.attr "data-task" == some v)

/-- The first `.list` element below an element of class `col` whose `data-state`
attribute is `s`. -/
def pushColumn (dom : Forest) (s : String) : Option Path :=
  dom.findUnder (fun e => hasClass "col" e && e.attr "data-state" == some s)
    (hasClass "list") false

/-- How the browser reads the two selectors the script builds by interpolation.
`task v` is `document.querySelector` for the text `[data-task="${v}"]` and `column s`
the same for `.col[data-state="${s}"] .list`: the exception thrown, or the query the
text denotes.  Whatever the text, the reading is left open, except that a plain `v`
stands for itself between the quotes, so that the selector is the attribute test it
looks like. -/
structure SelectorEngine where
  task : String → Except DomError (Forest → Option Path)
  column : String → Except DomError (Forest → Option Path)
  task_plain : ∀ v, cssPlain v = true → task v = .ok (fun dom => taskCard dom v)
  column_plain : ∀ s, cssPlain s = true → column s = .ok (fun dom => pushColumn dom s)

/-- A sample engine, used to run the script on plain texts, on which all engines agree.
It refuses every other text, which a browser need not do. -/
def strictSelectors : SelectorEngine where
  task v := if cssPlain v then .ok (fun dom => taskCard dom v) else .error .syntaxError
  column s := if cssPlain s then .ok (fun dom => pushColumn dom s) else .error .syntaxError
  task_plain v h := by simp [h]
  column_plain s h := by simp [h]

/-- How the browser takes an assignment to `style.width`: the text the declaration is
stored as, or `none` when the value is not a width and the assignment is ignored.  A
whole percentage from 0 to 100 is stored as written. -/
structure StyleEngine where
  width : String → Option String
  percent : ∀ n : Nat, n ≤ 100 → width (toString n ++ "%") = some (toString n ++ "%")

/-- A sample engine, used to run the script on whole percentages from 0 to 100.  It
takes nothing else for a width, which a browser need not do. -/
def strictWidths : StyleEngine where
  width w := if (List.range 101).any (fun n => w == toString n ++ "%") then some w else none
  percent n h := by
    have : (List.range 101).any (fun m => toString n ++ "%" == toString m ++ "%") = true :=
      List.any_eq_true.2 ⟨n, List.mem_range.2 (by omega), by simp⟩
    simp [this]

/-! ## Requests, effects and runs -/

/-- A request handed to `fetch`. -/
structure Request where
  method : String
  url : String
  headers : List (String × String)
  body : Option String
deriving DecidableEq, Repr

/-- An item `p` of the progress list as the loop reads it: each field is the text the
template literal renders for it, `${p.id}`, `${p.done}`, `${p.total}` and `${p.pct}`
(`undefined` for a field the item does not have). -/
structure ProgressRecord where
  id : String
  done : String
  total : String
  pct : String
deriving DecidableEq, Repr

/-- A response: `res.ok`, the text `res.text()` resolves to and what `res.json()`
resolves to, as the sequence of items `for(const p of items)` goes through.  An item is
`none` when it is `null`, whose property read throws; `json` is `none` when `res.json()`
rejects or its value cannot be iterated. -/
structure Response where
  ok : Bool
  text : String
  json : Option (List (Option ProgressRecord))
deriving DecidableEq, Repr

/-- How an awaited `fetch` ends. -/
inductive FetchOutcome where
  | rejected : FetchOutcome
  | responded (res : Response) : FetchOutcome
deriving DecidableEq, Repr

/-- The three refreshers. -/
inductive Refresher where
  | widgets : Refresher
  | workload : Refresher
  | progress : Refresher
deriving DecidableEq, Repr

/-- What a handler does besides changing the DOM, in order. -/
inductive Effect where
  | fetch (req : Request) : Effect
  | call (r : Refresher) : Effect
  | consoleError (msg : String) : Effect
deriving DecidableEq, Repr

/-- How a handler ends: its promise is fulfilled (a plain function returns), or it is
rejected (a plain function throws). -/
inductive Settled where
  | fulfilled : Settled
  | rejected (e : DomError) : Settled
deriving DecidableEq, Repr

/-- The outcome of one handler run. -/
structure Run where
  dom : Forest
  effects : List Effect
  settled : Settled
deriving DecidableEq, Repr

/-- The state the script reads: the document, the module variable `draggedId` and
`location.search`. -/
structure Page where
  dom : Forest
  draggedId : JSVal
  search : String
deriving DecidableEq, Repr

/-- The refreshers a run invoked, in order. -/
def Run.calls (r : Run) : List Refresher :=
  r.effects.filterMap (fun e => match e with | .call c => some c | _ => none)

/-- The requests a run issued, in order. -/
def Run.requests (r : Run) : List Request :=
  r.effects.filterMap (fun e => match e with | .fetch q => some q | _ => none)

/-- A `fetch(url)` with no options. -/
def getRequest (url : String) : Request :=
  ⟨"GET", url, [], none⟩

/-! ## `static/app.js` -/

/-- `dragTask(e)`: record `e.currentTarget.dataset.task` in `draggedId`.  The event is
given by the path of its `currentTarget`. -/
def dragTask (pg : Page) (target : Path) : Except DomError Page :=
  match pg.dom.get? target with
  | none => .error .typeError
  | some el => .ok { pg with draggedId := JSVal.ofOption (el.attr "data-task") }

/-- One character of a JSON string literal, as `JSON.stringify` writes it. -/
def jsonEscape (c : Char) : String :=
  if c.toNat == 34 then String.mk [Char.ofNat 92, Char.ofNat 34]
  else if c.toNat == 92 then String.mk [Char.ofNat 92, Char.ofNat 92]
  else if c.toNat == 8 then String.mk [Char.ofNat 92, 'b']
  else if c.toNat == 12 then String.mk [Char.ofNat 92, 'f']
  else if c.toNat == 10 then String.mk [Char.ofNat 92, 'n']
  else if c.toNat == 13 then String.mk [Char.ofNat 92, 'r']
  else if c.toNat == 9 then String.mk [Char.ofNat 92, 't']
  else if c.toNat < 32 then
    String.mk [Char.ofNat 92, 'u', '0', '0', Nat.digitChar (c.toNat / 16),
      Nat.digitChar (c.toNat % 16)]
  else String.singleton c

/-- A JSON string literal. -/
def jsonQuote (s : String) : String :=
  String.singleton (Char.ofNat 34) ++ String.join (s.data.map jsonEscape)
    ++ String.singleton (Char.ofNat 34)

/-- `JSON.stringify({ state })`: a property whose value is `undefined` is left out. -/
def stringifyState : JSVal → String
  | .undefined => "\x7b\x7d"
  | .null => "\x7b\"state\":null\x7d"
  | .str s => "\x7b\"state\":" ++ jsonQuote s ++ "\x7d"

/-- The request of `dropTask`. -/
def patchRequest (draggedId state : JSVal) : Request :=
  ⟨"PATCH", "/tasks/" ++ draggedId.toStr, [("Content-Type", "application/json")],
    some (stringifyState state)⟩

/-- The three calls that end `dropTask` and the `task_updated` listener. -/
def refreshAll : List Effect :=
  [.call .widgets, .call .workload, .call .progress]

/-- The statements of `dropTask` before its `try`: read `data-state`, find the nested
`.list` and the card, and move the card when both exist.  Yields the new DOM and
`state`, or the exception thrown. -/
def dropTaskSync (eng : SelectorEngine) (pg : Page) (target : Path) :
    Except DomError (Forest × JSVal) :=
  match pg.dom.get? target with
  | none => .error .typeError
  | some tgt =>
    let state := JSVal.ofOption (tgt.attr "data-state")
    let column := (tgt.kids.findPath (hasClass "list")).map (fun p => target ++ p)
    match eng.task pg.draggedId.toStr with
    | .error er => .error er
    | .ok query =>
      match column, query pg.dom with
      | some col, some card =>
        match pg.dom.prepend col card with
        | .error er => .error er
        | .ok dom1 => .ok (dom1, state)
      | _, _ => .ok (pg.dom, state)

/-- `dropTask(e)` with the outcome `patch` of the request it awaits. -/
def dropTask (eng : SelectorEngine) (pg : Page) (target : Path) (patch : FetchOutcome) :
    Run :=
  match dropTaskSync eng pg target with
  | .error er => ⟨pg.dom, [], .rejected er⟩
  | .ok (dom1, state) =>
    let caught := match patch with
      | .rejected => [Effect.consoleError "PATCH failed"]
      | .responded _ => []
    ⟨dom1, [Effect.fetch (patchRequest pg.draggedId state)] ++ caught ++ refreshAll,
      .fulfilled⟩

/-- The `task_updated` listener applied to the payload fields `id` and `state`. -/
def onTaskUpdated (eng : SelectorEngine) (pg : Page) (id state : JSVal) : Run :=
  match eng.task id.toStr with
  | .error er => ⟨pg.dom, [], .rejected er⟩
  | .ok query =>
    match query pg.dom with
    | none => ⟨pg.dom, refreshAll, .fulfilled⟩
    | some card =>
      if state.truthy then
        match eng.column state.toStr with
        | .error er => ⟨pg.dom, [], .rejected er⟩
        | .ok find =>
          match find pg.dom with
          | none => ⟨pg.dom, refreshAll, .fulfilled⟩
          | some col =>
            match pg.dom.prepend col card with
            | .error er => ⟨pg.dom, [], .rejected er⟩
            | .ok dom1 => ⟨dom1, refreshAll, .fulfilled⟩
      else ⟨pg.dom, refreshAll, .fulfilled⟩

/-- The URL of a fragment endpoint:
`${base}${qs}${qs ? '&' : '?'}ts=${Date.now()}` with `qs = location.search || ''`;
`ts` is the text `${Date.now()}` renders. -/
def fragmentUrl (base qs ts : String) : String :=
  base ++ qs ++ (if qs != "" then "&" else "?") ++ "ts=" ++ ts

/-- The URL of the progress endpoint; `ts` is the text `${Date.now()}` renders. -/
def progressUrl (ts : String) : String :=
  "/dashboard/progress.json?ts=" ++ ts

/-- Parse `html` into a detached `div` and swap the page element at `anchor` for the
parsed element with id `anchorId`, if there is one. -/
def swapAnchor (parseHTML : String → Forest) (dom : Forest) (anchor : Path)
    (anchorId html : String) : Forest :=
  match (parseHTML html).find (hasId anchorId) with
  | some fresh => dom.replaceWith anchor fresh
  | none => dom

/-- `refreshWidgets()` at time `ts`, with the outcome `out` of its request.  `parseHTML`
is the HTML parser behind `wrapper.innerHTML = html`. -/
def refreshWidgets (parseHTML : String → Forest) (pg : Page) (ts : String)
    (out : FetchOutcome) : Run :=
  match pg.dom.findPath (hasId "rightAside") with
  | none => ⟨pg.dom, [], .fulfilled⟩
  | some aside =>
    let req := Effect.fetch (getRequest (fragmentUrl "/dashboard/widgets" pg.search ts))
    match out with
    | .rejected => ⟨pg.dom, [req], .fulfilled⟩
    | .responded res =>
      ⟨swapAnchor parseHTML pg.dom aside "rightAside" res.text, [req], .fulfilled⟩

/-- `refreshWorkload()` at time `ts`, with the outcome `out` of its request. -/
def refreshWorkload (parseHTML : String → Forest) (pg : Page) (ts : String)
    (out : FetchOutcome) : Run :=
  let req := Effect.fetch (getRequest (fragmentUrl "/dashboard/workload" pg.search ts))
  match out with
  | .rejected => ⟨pg.dom, [req, .consoleError "refreshWorkload error"], .fulfilled⟩
  | .responded res =>
    if !res.ok then ⟨pg.dom, [req], .fulfilled⟩
    else match pg.dom.findPath (hasId "leftAside") with
      | none => ⟨pg.dom, [req], .fulfilled⟩
      | some left =>
        ⟨swapAnchor parseHTML pg.dom left "leftAside" res.text, [req], .fulfilled⟩

/-- The width declaration of an element becomes `w`. -/
def setWidth (w : String) (e : Elem) : Elem :=
  { e with width := w }

/-- `el.style.width = w`: the declaration becomes what the browser stores for `w`, and
stays as it is when the browser does not take `w` for a width. -/
def assignWidth (css : StyleEngine) (w : String) (e : Elem) : Elem :=
  match css.width w with
  | some v => setWidth v e
  | none => e

/-- `el.textContent = t`: the children give way to one text node (none for `""`). -/
def setTextContent (t : String) (e : Elem) : Elem :=
  { e with kids := if t = "" then .nil else .text t .nil }

/-- The width `${p.pct}%`. -/
def pctWidth (p : ProgressRecord) : String :=
  p.pct ++ "%"

/-- The label `${p.done}/${p.total} (${p.pct}%)`. -/
def pctLabel (p : ProgressRecord) : String :=
  p.done ++ "/" ++ p.total ++ " (" ++ p.pct ++ "%)"

/-- `if(el) el.<property> = ...` for an optional element reference. -/
def modifyIfFound (g : Elem → Elem) (dom : Forest) : Option Path → Forest
  | some p => dom.modifyAt g p
  | none => dom

/-- One pass of the loop body of `refreshProgress` for record `p`. -/
def patchRecord (css : StyleEngine) (dom : Forest) (p : ProgressRecord) : Forest :=
  let barDash := dom.findPath (hasId ("bar-" ++ p.id))
  let txtDash := dom.findPath (hasId ("txt-" ++ p.id))
  let dom1 := modifyIfFound (assignWidth css (pctWidth p)) dom barDash
  let dom2 := modifyIfFound (setTextContent (pctLabel p)) dom1 txtDash
  let barProj := dom2.findPath (hasId ("proj-bar-" ++ p.id))
  let txtProj := dom2.findPath (hasId ("proj-txt-" ++ p.id))
  let dom3 := modifyIfFound (assignWidth css (pctWidth p)) dom2 barProj
  modifyIfFound (setTextContent (pctLabel p)) dom3 txtProj

/-- The loop `for(const p of items)` over a list whose items are all records. -/
def patchProgress (css : StyleEngine) (dom : Forest) (items : List ProgressRecord) :
    Forest :=
  items.foldl (patchRecord css) dom

/-- The loop `for(const p of items)` of `refreshProgress`: the DOM it leaves and whether
it threw, which it does at the first `null` item. -/
def patchItems (css : StyleEngine) : Forest → List (Option ProgressRecord) → Forest × Bool
  | dom, [] => (dom, false)
  | dom, none :: _ => (dom, true)
  | dom, some p :: rest => patchItems css (patchRecord css dom p) rest

/-- `refreshProgress()` at time `ts`, with the outcome `out` of its request. -/
def refreshProgress (css : StyleEngine) (pg : Page) (ts : String) (out : FetchOutcome) :
    Run :=
  let req := Effect.fetch (getRequest (progressUrl ts))
  match out with
  | .rejected => ⟨pg.dom, [req, .consoleError "refreshProgress error"], .fulfilled⟩
  | .responded res =>
    if !res.ok then ⟨pg.dom, [req], .fulfilled⟩
    else match res.json with
      | none => ⟨pg.dom, [req, .consoleError "refreshProgress error"], .fulfilled⟩
      | some items =>
        ⟨(patchItems css pg.dom items).1,
          if (patchItems css pg.dom items).2 then
            [req, .consoleError "refreshProgress error"]
          else [req],
          .fulfilled⟩

/-! ## Observations used in the statements -/

/-- Number of question marks in a string. -/
def questionMarks (s : String) : Nat :=
  s.data.count (Char.ofNat 63)

/-- The `.list` element nested in the drop target,
`e.currentTarget.querySelector('.list')`. -/
def dropColumn (dom : Forest) (target : Path) : Option Path :=
  match dom.get? target with
  | some tgt => (tgt.kids.findPath (hasClass "list")).map (fun p => target ++ p)
  | none => none

/-- Whether both references exist and the card is the column or one of its ancestors. -/
def encloses : Option Path → Option Path → Bool
  | some card, some col => Path.within card col
  | _, _ => false

/-! ## Element ids and the writes of the progress loop -/

/-- The `id` attributes of the elements of a forest, in document order. -/
def Forest.ids : Forest → List String
  | .nil => []
  | .text _ rest => rest.ids
  | .elem _ a _ kids rest =>
    (match a.lookup "id" with
      | some i => [i]
      | none => []) ++ (kids.ids ++ rest.ids)

/-- No two elements of the page share an `id`, as HTML requires. -/
def uniqueIds (f : Forest) : Prop :=
  f.ids.Nodup

instance (f : Forest) : Decidable (uniqueIds f) :=
  inferInstanceAs (Decidable f.ids.Nodup)

/-- The text node `textContent = t` leaves behind. -/
def textNode (t : String) : Forest :=
  if t = "" then .nil else .text t .nil

/-- One write of the progress loop: `style.width = v` or `textContent = v` on the
element with id `id`. -/
structure Write where
  isLabel : Bool
  id : String
  val : String
deriving DecidableEq, Repr

/-- The write performed on the element `getElementById` returns, if any. -/
def Write.applyFirst (o : Write) (f : Forest) : Forest :=
  modifyIfFound (if o.isLabel then setTextContent o.val else setWidth o.val) f
    (f.findPath (hasId o.id))

/-- The write performed on every element carrying the id. -/
def Write.applyAll (o : Write) : Forest → Forest
  | .nil => .nil
  | .text s rest => .text s (o.applyAll rest)
  | .elem k a w kids rest =>
    if hasId o.id ⟨k, a, w, kids⟩ then
      (if o.isLabel then .elem k a w (textNode o.val) (o.applyAll rest)
       else .elem k a o.val (o.applyAll kids) (o.applyAll rest))
    else .elem k a w (o.applyAll kids) (o.applyAll rest)

/-- The write an assignment of `w` to `style.width` of the element `i` amounts to: none
when the browser does not take `w` for a width. -/
def widthWrites (css : StyleEngine) (i w : String) : List Write :=
  match css.width w with
  | some v => [⟨false, i, v⟩]
  | none => []

/-- The writes of one pass of the loop, in order. -/
def recordWrites (css : StyleEngine) (p : ProgressRecord) : List Write :=
  widthWrites css ("bar-" ++ p.id) (pctWidth p) ++ [⟨true, "txt-" ++ p.id, pctLabel p⟩]
    ++ widthWrites css ("proj-bar-" ++ p.id) (pctWidth p)
    ++ [⟨true, "proj-txt-" ++ p.id, pctLabel p⟩]

/-- The writes of the whole loop, in order. -/
def progressWrites (css : StyleEngine) : List ProgressRecord → List Write
  | [] => []
  | p :: ps => recordWrites css p ++ progressWrites css ps

/-- The records the loop goes through before it meets a `null` item. -/
def leadingRecords : List (Option ProgressRecord) → List ProgressRecord
  | [] => []
  | none :: _ => []
  | some p :: rest => p :: leadingRecords rest

/-- Perform a list of writes on every element carrying the id. -/
def runWrites (ws : List Write) (f : Forest) : Forest :=
  ws.foldl (fun g o => o.applyAll g) f

/-- The last record of the list whose id renders as `i`. -/
def lastFor (items : List ProgressRecord) (i : String) : Option ProgressRecord :=
  items.reverse.find? (fun p => p.id == i)

/-- Every element of the forest satisfies `P`. -/
def Forest.Forall (P : Elem → Prop) : Forest → Prop
  | .nil => True
  | .text _ rest => rest.Forall P
  | .elem k a w kids rest => P ⟨k, a, w, kids⟩ ∧ kids.Forall P ∧ rest.Forall P

/-- What a write leaves on an element carrying its id: the text node or the width. -/
def Write.holdsAt (o : Write) (e : Elem) : Prop :=
  hasId o.id e = true → if o.isLabel then e.kids = textNode o.val else e.width = o.val

/-! ## Concrete pages -/

/-- A dashboard whose side panel `#rightAside` is the element with key 1. -/
def asidePage : Page :=
  ⟨.elem 1 [("id", "rightAside")] "" (.text "3 tasks due" .nil) .nil, .null, ""⟩

/-- The body of an error page that carries its own `#rightAside`. -/
def errorHtml : String :=
  "<aside id=\"rightAside\">Server Error</aside>"

/-- What the HTML parser makes of `errorHtml`: a new element, with key 2. -/
def errorParse (html : String) : Forest :=
  if html = errorHtml then .elem 2 [("id", "rightAside")] "" (.text "Server Error" .nil) .nil
  else .nil

/-- A page without `#leftAside` (the Projects tab). -/
def projectsPage : Page :=
  ⟨.elem 1 [("id", "proj-bar-4")] "" .nil .nil, .null, ""⟩

/-- A board with two columns; card 7 sits in the first, card 8 in the second. -/
def boardDom : Forest :=
  .elem 1 [("class", "col"), ("data-state", "todo")] ""
    (.elem 2 [("class", "list")] "" (.elem 3 [("data-task", "7")] "" .nil .nil) .nil)
  (.elem 4 [("class", "col"), ("data-state", "done")] ""
    (.elem 5 [("class", "list")] "" (.elem 6 [("data-task", "8")] "" .nil .nil) .nil)
  .nil)

/-- A card (key 1) that contains a drop target (key 2) and its `.list` (key 3). -/
def nestedDom : Forest :=
  .elem 1 [("data-task", "7")] ""
    (.elem 2 [("data-state", "done")] "" (.elem 3 [("class", "list")] "" .nil .nil) .nil)
  .nil

/-- A container with `data-state="done"` and a nested `.list` but without the class
`col`, followed by card 7. -/
def plainColumnDom : Forest :=
  .elem 1 [("data-state", "done")] "" (.elem 2 [("class", "list")] "" .nil .nil)
  (.elem 3 [("data-task", "7")] "" .nil .nil)

/-- A card (key 1) that contains a column of class `col` (key 2) and its `.list`. -/
def nestedColDom : Forest :=
  .elem 1 [("data-task", "7")] ""
    (.elem 2 [("class", "col"), ("data-state", "done")] ""
      (.elem 3 [("class", "list")] "" .nil .nil) .nil)
  .nil

/-- A dashboard card for project `p1`: its bar and its label; no Projects-table row. -/
def progressDom : Forest :=
  .elem 1 [("id", "bar-p1")] "0%" .nil
  (.elem 2 [("id", "txt-p1")] "" (.text "0/10 (0%)" .nil) .nil)

/-- A page with two elements of id `bar-p1`, the first inside the label `txt-p1`. -/
def dupDom : Forest :=
  .elem 1 [("id", "txt-p1")] "" (.elem 2 [("id", "bar-p1")] "" .nil .nil)
  (.elem 3 [("id", "bar-p1")] "" .nil .nil)

/-- The record `{id: "p1", done: 3, total: 10, pct: 30}`. -/
def recordP1 : ProgressRecord :=
  ⟨"p1", "3", "10", "30"⟩

/-! ## Theorems -/

theorem questionMarks_append (a b : String) :
    questionMarks (a ++ b) = questionMarks a + questionMarks b := by
  simp [questionMarks, String.data_append, List.count_append]

theorem refreshProgress_requests (css : StyleEngine) (pg : Page) (ts : String)
    (out : FetchOutcome) :
    (refreshProgress css pg ts out).requests
      = [⟨"GET", "/dashboard/progress.json?ts=" ++ ts, [], none⟩] := by
  unfold refreshProgress
  cases out with
  | rejected => simp [Run.requests, progressUrl, getRequest]
  | responded res =>
    simp only []
    split
    · simp [Run.requests, progressUrl, getRequest]
    · split
      · simp [Run.requests, progressUrl, getRequest]
      · split <;> simp [Run.requests, progressUrl, getRequest]

/-- C6 (amended): `refreshWidgets` (when its anchor is on the page) and
`refreshWorkload` send a `GET` for their endpoint followed by the page query string, a
separator and `ts=<timestamp>`, the separator being `?` for an empty query string and
`&` otherwise; `refreshProgress` sends a `GET` for
`/dashboard/progress.json?ts=<timestamp>`.  Besides the question marks of the query
string and of the timestamp text, the two fragment URLs hold exactly one question mark
when the query string is empty and none when it is not, and the progress URL, which
does not carry the query string, always holds exactly one. -/
theorem C6_cache_busting_urls (parseHTML : String → Forest) (css : StyleEngine) (pg : Page)
    (ts : String) (out : FetchOutcome) :
    ((refreshWidgets parseHTML pg ts out).requests =
        if (pg.dom.findPath (hasId "rightAside")).isSome then
          [⟨"GET", "/dashboard/widgets" ++ pg.search
            ++ (if pg.search = "" then "?" else "&") ++ "ts=" ++ ts, [], none⟩]
        else [])
    ∧ (refreshWorkload parseHTML pg ts out).requests =
        [⟨"GET", "/dashboard/workload" ++ pg.search
          ++ (if pg.search = "" then "?" else "&") ++ "ts=" ++ ts, [], none⟩]
    ∧ (refreshProgress css pg ts out).requests =
        [⟨"GET", "/dashboard/progress.json?ts=" ++ ts, [], none⟩]
    ∧ questionMarks ("/dashboard/widgets" ++ pg.search
          ++ (if pg.search = "" then "?" else "&") ++ "ts=" ++ ts) =
        questionMarks pg.search + questionMarks ts + (if pg.search = "" then 1 else 0)
    ∧ questionMarks ("/dashboard/workload" ++ pg.search
          ++ (if pg.search = "" then "?" else "&") ++ "ts=" ++ ts) =
        questionMarks pg.search + questionMarks ts + (if pg.search = "" then 1 else 0)
    ∧ questionMarks ("/dashboard/progress.json?ts=" ++ ts) = questionMarks ts + 1 := by
  have hsep : (if (pg.search != "") = true then "&" else "?")
      = (if pg.search = "" then "?" else "&") := by
    by_cases h : pg.search = "" <;> simp [h]
  refine ⟨?_, ?_, refreshProgress_requests css pg ts out, ?_, ?_, ?_⟩
  · unfold refreshWidgets
    cases h : pg.dom.findPath (hasId "rightAside") with
    | none => simp [Run.requests]
    | some a =>
      cases out <;> simp [Run.requests, fragmentUrl, hsep, getRequest]
  · unfold refreshWorkload
    cases out with
    | rejected => simp [Run.requests, fragmentUrl, hsep, getRequest]
    | responded res =>
      simp only []
      split
      · simp [Run.requests, fragmentUrl, hsep, getRequest]
      · split <;> simp [Run.requests, fragmentUrl, hsep, getRequest]
  · have h1 : questionMarks "/dashboard/widgets" = 0 := by decide
    have h2 : questionMarks "&" = 0 := by decide
    have h3 : questionMarks "ts=" = 0 := by decide
    have h4 : questionMarks "?" = 1 := by decide
    by_cases h : pg.search = ""
    · simp only [h, if_true, questionMarks_append, h1, h3, h4]
      have h5 : questionMarks "" = 0 := by decide
      omega
    · simp only [h, if_false, questionMarks_append, h1, h2, h3]
      omega
  · have h1 : questionMarks "/dashboard/workload" = 0 := by decide
    have h2 : questionMarks "&" = 0 := by decide
    have h3 : questionMarks "ts=" = 0 := by decide
    have h4 : questionMarks "?" = 1 := by decide
    by_cases h : pg.search = ""
    · simp only [h, if_true, questionMarks_append, h1, h3, h4]
      have h5 : questionMarks "" = 0 := by decide
      omega
    · simp only [h, if_false, questionMarks_append, h1, h2, h3]
      omega
  · have h1 : questionMarks "/dashboard/progress.json?ts=" = 1 := by decide
    simp only [questionMarks_append, h1]
    omega

/-- C6 (counterexample): on a page whose query string is `?a=1`, `refreshProgress`
requests `/dashboard/progress.json?ts=5`, a URL with a question mark written by the
client although the query string starts with one. -/
theorem C6_progress_url_has_client_question_mark :
    questionMarks "/dashboard/progress.json?ts=5" = 1
    ∧ ∀ (css : StyleEngine) (out : FetchOutcome),
        (refreshProgress css ⟨.nil, .null, "?a=1"⟩ "5" out).requests
          = [⟨"GET", "/dashboard/progress.json?ts=5", [], none⟩] := by
  refine ⟨by decide, fun css out => ?_⟩
  exact refreshProgress_requests css _ "5" out

/-- `refreshWorkload` leaves the page as it is on a non-success status. -/
theorem refreshWorkload_not_ok (parseHTML : String → Forest) (pg : Page) (ts : String)
    (res : Response) (h : res.ok = false) :
    (refreshWorkload parseHTML pg ts (.responded res)).dom = pg.dom := by
  simp [refreshWorkload, h]

/-- C1 (failing input): on a page with `#rightAside`, a response with a non-success
status whose body holds an element with id `rightAside` makes `refreshWidgets` swap the
anchor (key 1) for the element parsed from the body (key 2). -/
theorem C1_widgets_swaps_anchor_on_error_status :
    (refreshWidgets errorParse asidePage "0" (.responded ⟨false, errorHtml, none⟩)).dom
      = .elem 2 [("id", "rightAside")] "" (.text "Server Error" .nil) .nil
    ∧ (refreshWidgets errorParse asidePage "0" (.responded ⟨false, errorHtml, none⟩)).dom
      ≠ asidePage.dom := by
  decide

/-- `refreshWidgets` neither requests anything nor touches the page when `#rightAside`
is missing. -/
theorem refreshWidgets_without_anchor (parseHTML : String → Forest) (pg : Page)
    (ts : String) (out : FetchOutcome) (h : pg.dom.findPath (hasId "rightAside") = none) :
    refreshWidgets parseHTML pg ts out = ⟨pg.dom, [], .fulfilled⟩ := by
  simp [refreshWidgets, h]

/-- `refreshWorkload` leaves the page as it is when `#leftAside` is missing. -/
theorem refreshWorkload_without_anchor (parseHTML : String → Forest) (pg : Page)
    (ts : String) (out : FetchOutcome) (h : pg.dom.findPath (hasId "leftAside") = none) :
    (refreshWorkload parseHTML pg ts out).dom = pg.dom := by
  unfold refreshWorkload
  cases out with
  | rejected => rfl
  | responded res =>
    simp only [h]
    split <;> rfl

/-- C9 (failing input): on a page without `#leftAside`, `refreshWorkload` still issues
its request. -/
theorem C9_workload_requests_without_anchor :
    projectsPage.dom.findPath (hasId "leftAside") = none
    ∧ (refreshWorkload errorParse projectsPage "5" (.responded ⟨true, "", none⟩)).requests
      = [⟨"GET", "/dashboard/workload?ts=5", [], none⟩] := by
  decide

theorem get?_cons (e : Elem) (rest : Forest) : (Forest.cons e rest).get? [0] = some e := by
  cases e; rfl

theorem get?_nil (f : Forest) : f.get? [] = none := by
  cases f <;> rfl

theorem get?_modifyAt_self (g : Elem → Elem) (f : Forest) : ∀ (p : Path) (e : Elem),
    f.get? p = some e → (f.modifyAt g p).get? p = some (g e) := by
  induction f with
  | nil => intro p e h; simp [Forest.get?] at h
  | text s rest ih =>
    intro p e h
    match p with
    | [] => simp [Forest.get?] at h
    | 0 :: _ => simp [Forest.get?] at h
    | (i + 1) :: p =>
      simp only [Forest.get?] at h
      simp only [Forest.modifyAt, Forest.get?]
      exact ih _ _ h
  | elem k a w kids rest ihk ihr =>
    intro p e h
    match p with
    | [] => simp [Forest.get?] at h
    | [0] =>
      simp only [Forest.get?, Option.some.injEq] at h
      subst h
      simp only [Forest.modifyAt]
      exact get?_cons _ _
    | 0 :: j :: p =>
      simp only [Forest.get?] at h
      simp only [Forest.modifyAt, Forest.get?]
      exact ihk _ _ h
    | (i + 1) :: p =>
      simp only [Forest.get?] at h
      simp only [Forest.modifyAt, Forest.get?]
      exact ihr _ _ h

theorem get?_removeAt (f : Forest) : ∀ (c q : Path) (l : Elem),
    Path.within c q = false → f.get? q = some l →
    ∃ l', (f.removeAt c).get? (Path.afterRemoval c q) = some l'
      ∧ l'.key = l.key ∧ l'.attrs = l.attrs ∧ l'.width = l.width := by
  induction f with
  | nil => intro c q l _ h; simp [Forest.get?] at h
  | text s rest ih =>
    intro c q l hw h
    match q, c with
    | [], _ => simp [Forest.get?] at h
    | 0 :: _, _ => simp [Forest.get?] at h
    | (j + 1) :: q, [] => simp [Path.within] at hw
    | (j + 1) :: q, [0] =>
      simp only [Forest.get?] at h
      simp [Forest.removeAt, Path.afterRemoval, h]
    | (j + 1) :: q, 0 :: k :: c =>
      simp only [Forest.get?] at h
      simp [Forest.removeAt, Path.afterRemoval, Forest.get?, h]
    | (j + 1) :: q, [i + 1] =>
      simp only [Forest.get?] at h
      have hw' : Path.within [i] (j :: q) = false := by
        simpa [Path.within] using hw
      obtain ⟨l', h1, h2⟩ := ih [i] (j :: q) l hw' h
      refine ⟨l', ?_, h2⟩
      simp only [Forest.removeAt, Path.afterRemoval] at h1 ⊢
      by_cases hij : i < j
      · simp only [hij, if_true, Nat.add_lt_add_iff_right] at h1 ⊢
        obtain ⟨j', rfl⟩ : ∃ j', j = j' + 1 := ⟨j - 1, by omega⟩
        simpa [Forest.get?] using h1
      · simp only [hij, if_false, Nat.add_lt_add_iff_right] at h1 ⊢
        simpa [Forest.get?] using h1
    | (j + 1) :: q, (i + 1) :: k :: c =>
      simp only [Forest.get?] at h
      have hw' : Path.within (i :: k :: c) (j :: q) = false := by
        simpa [Path.within] using hw
      obtain ⟨l', h1, h2⟩ := ih (i :: k :: c) (j :: q) l hw' h
      refine ⟨l', ?_, h2⟩
      simp only [Forest.removeAt, Path.afterRemoval] at h1 ⊢
      by_cases hij : i = j
      · simp only [hij, if_true] at h1 ⊢
        simpa [Forest.get?] using h1
      · simp only [hij, if_false, Nat.add_right_cancel_iff] at h1 ⊢
        simpa [Forest.get?] using h1
  | elem k a w kids rest ihk ihr =>
    intro c q l hw h
    match q, c with
    | [], _ => simp [Forest.get?] at h
    | _ :: _, [] => simp [Path.within] at hw
    | [0], [0] => simp [Path.within] at hw
    | [0], 0 :: k :: c =>
      simp only [Forest.get?, Option.some.injEq] at h
      subst h
      simp [Forest.removeAt, Path.afterRemoval, Forest.get?]
    | [0], [i + 1] =>
      simp only [Forest.get?, Option.some.injEq] at h
      subst h
      simp [Forest.removeAt, Path.afterRemoval, Forest.get?]
    | [0], (i + 1) :: k :: c =>
      simp only [Forest.get?, Option.some.injEq] at h
      subst h
      simp [Forest.removeAt, Path.afterRemoval, Forest.get?]
    | 0 :: j :: q, [0] => simp [Path.within] at hw
    | 0 :: j :: q, 0 :: k :: c =>
      simp only [Forest.get?] at h
      have hw' : Path.within (k :: c) (j :: q) = false := by
        simpa [Path.within] using hw
      obtain ⟨l', h1, h2⟩ := ihk (k :: c) (j :: q) l hw' h
      refine ⟨l', ?_, h2⟩
      simp only [Forest.removeAt, Path.afterRemoval, if_true]
      cases hX : Path.afterRemoval (k :: c) (j :: q) with
      | nil => rw [hX, get?_nil] at h1; cases h1
      | cons x X => rw [hX] at h1; simpa [Forest.get?] using h1
    | 0 :: j :: q, [i + 1] =>
      simp only [Forest.get?] at h
      simp [Forest.removeAt, Path.afterRemoval, Forest.get?, h]
    | 0 :: j :: q, (i + 1) :: k :: c =>
      simp only [Forest.get?] at h
      simp [Forest.removeAt, Path.afterRemoval, Forest.get?, h]
    | (j + 1) :: q, [0] =>
      simp only [Forest.get?] at h
      simp [Forest.removeAt, Path.afterRemoval, h]
    | (j + 1) :: q, 0 :: k :: c =>
      simp only [Forest.get?] at h
      simp [Forest.removeAt, Path.afterRemoval, Forest.get?, h]
    | (j + 1) :: q, [i + 1] =>
      simp only [Forest.get?] at h
      have hw' : Path.within [i] (j :: q) = false := by
        simpa [Path.within] using hw
      obtain ⟨l', h1, h2⟩ := ihr [i] (j :: q) l hw' h
      refine ⟨l', ?_, h2⟩
      simp only [Forest.removeAt, Path.afterRemoval] at h1 ⊢
      by_cases hij : i < j
      · simp only [hij, if_true, Nat.add_lt_add_iff_right] at h1 ⊢
        obtain ⟨j', rfl⟩ : ∃ j', j = j' + 1 := ⟨j - 1, by omega⟩
        simpa [Forest.get?] using h1
      · simp only [hij, if_false, Nat.add_lt_add_iff_right] at h1 ⊢
        simpa [Forest.get?] using h1
    | (j + 1) :: q, (i + 1) :: k :: c =>
      simp only [Forest.get?] at h
      have hw' : Path.within (i :: k :: c) (j :: q) = false := by
        simpa [Path.within] using hw
      obtain ⟨l', h1, h2⟩ := ihr (i :: k :: c) (j :: q) l hw' h
      refine ⟨l', ?_, h2⟩
      simp only [Forest.removeAt, Path.afterRemoval] at h1 ⊢
      by_cases hij : i = j
      · simp only [hij, if_true] at h1 ⊢
        simpa [Forest.get?] using h1
      · simp only [hij, if_false, Nat.add_right_cancel_iff] at h1 ⊢
        simpa [Forest.get?] using h1

theorem get?_bump (f : Forest) (p : Path) (k : Nat) (a : Attrs) (w : String) (kids : Forest) :
    (Forest.elem k a w kids f).get? (Path.bump p) = f.get? p := by
  cases p with
  | nil => simp [Path.bump, Forest.get?, get?_nil]
  | cons i p => simp [Path.bump, Forest.get?]

theorem get?_bump_text (f : Forest) (p : Path) (s : String) :
    (Forest.text s f).get? (Path.bump p) = f.get? p := by
  cases p with
  | nil => simp [Path.bump, Forest.get?, get?_nil]
  | cons i p => simp [Path.bump, Forest.get?]

theorem get?_zero_cons (k : Nat) (a : Attrs) (w : String) (kids rest : Forest) (p : Path)
    (e : Elem) (h : kids.get? p = some e) :
    (Forest.elem k a w kids rest).get? (0 :: p) = some e := by
  cases p with
  | nil => rw [get?_nil] at h; cases h
  | cons j p => simpa [Forest.get?] using h

theorem findPath_get? (P : Elem → Bool) (f : Forest) : ∀ (p : Path),
    f.findPath P = some p → ∃ e, f.get? p = some e ∧ P e = true := by
  induction f with
  | nil => intro p h; simp [Forest.findPath] at h
  | text s rest ih =>
    intro p h
    simp only [Forest.findPath, Option.map_eq_some'] at h
    obtain ⟨p', h1, rfl⟩ := h
    obtain ⟨e, he, hP⟩ := ih p' h1
    exact ⟨e, by rw [get?_bump_text]; exact he, hP⟩
  | elem k a w kids rest ihk ihr =>
    intro p h
    simp only [Forest.findPath] at h
    split at h
    · rename_i hP
      cases h
      exact ⟨_, rfl, hP⟩
    · split at h
      · rename_i p' hk
        cases h
        obtain ⟨e, he, hP⟩ := ihk p' hk
        exact ⟨e, get?_zero_cons _ _ _ _ _ _ _ he, hP⟩
      · simp only [Option.map_eq_some'] at h
        obtain ⟨p', h1, rfl⟩ := h
        obtain ⟨e, he, hP⟩ := ihr p' h1
        exact ⟨e, by rw [get?_bump]; exact he, hP⟩

theorem findUnder_get? (A P : Elem → Bool) (f : Forest) : ∀ (inside : Bool) (p : Path),
    f.findUnder A P inside = some p → ∃ e, f.get? p = some e ∧ P e = true := by
  induction f with
  | nil => intro i p h; simp [Forest.findUnder] at h
  | text s rest ih =>
    intro i p h
    simp only [Forest.findUnder, Option.map_eq_some'] at h
    obtain ⟨p', h1, rfl⟩ := h
    obtain ⟨e, he, hP⟩ := ih i p' h1
    exact ⟨e, by rw [get?_bump_text]; exact he, hP⟩
  | elem k a w kids rest ihk ihr =>
    intro i p h
    simp only [Forest.findUnder] at h
    split at h
    · rename_i hP
      cases h
      simp only [Bool.and_eq_true] at hP
      exact ⟨_, rfl, hP.2⟩
    · split at h
      · rename_i p' hk
        cases h
        obtain ⟨e, he, hP⟩ := ihk _ p' hk
        exact ⟨e, get?_zero_cons _ _ _ _ _ _ _ he, hP⟩
      · simp only [Option.map_eq_some'] at h
        obtain ⟨p', h1, rfl⟩ := h
        obtain ⟨e, he, hP⟩ := ihr _ p' h1
        exact ⟨e, by rw [get?_bump]; exact he, hP⟩

theorem get?_append (f : Forest) : ∀ (t : Path) (tgt : Elem) (p : Path) (e : Elem),
    f.get? t = some tgt → tgt.kids.get? p = some e → f.get? (t ++ p) = some e := by
  induction f with
  | nil => intro t tgt p e h; simp [Forest.get?] at h
  | text s rest ih =>
    intro t tgt p e h hk
    match t with
    | [] => simp [Forest.get?] at h
    | 0 :: _ => simp [Forest.get?] at h
    | (i + 1) :: t =>
      simp only [Forest.get?] at h
      simpa [Forest.get?] using ih (i :: t) tgt p e h hk
  | elem k a w kids rest ihk ihr =>
    intro t tgt p e h hk
    match t with
    | [] => simp [Forest.get?] at h
    | [0] =>
      simp only [Forest.get?, Option.some.injEq] at h
      subst h
      exact get?_zero_cons _ _ _ _ _ _ _ hk
    | 0 :: j :: t =>
      simp only [Forest.get?] at h
      simpa [Forest.get?] using ihk (j :: t) tgt p e h hk
    | (i + 1) :: t =>
      simp only [Forest.get?] at h
      simpa [Forest.get?] using ihr (i :: t) tgt p e h hk

/-- The card is in front of the children of the column after `prepend`. -/
theorem prepend_first (f : Forest) (col card : Path) (l c : Elem)
    (hl : f.get? col = some l) (hc : f.get? card = some c)
    (hw : Path.within card col = false) :
    ∃ f' l', f.prepend col card = .ok f'
      ∧ f'.get? (Path.afterRemoval card col) = some l'
      ∧ l'.key = l.key ∧ l'.attrs = l.attrs ∧ l'.kids.firstElem = some c := by
  obtain ⟨l0, h0, hk, ha, _⟩ := get?_removeAt f card col l hw hl
  refine ⟨_, _, ?_, get?_modifyAt_self
    (fun l => { l with kids := Forest.cons c l.kids }) _ _ _ h0, hk, ha, ?_⟩
  · simp [Forest.prepend, hw, hc]
  · cases c; rfl

theorem dropColumn_some (dom : Forest) (target col : Path) (h : dropColumn dom target = some col) :
    ∃ tgt p l, dom.get? target = some tgt ∧ tgt.kids.findPath (hasClass "list") = some p
      ∧ col = target ++ p ∧ dom.get? col = some l ∧ hasClass "list" l = true := by
  unfold dropColumn at h
  cases ht : dom.get? target with
  | none => simp [ht] at h
  | some tgt =>
    simp only [ht, Option.map_eq_some'] at h
    obtain ⟨p, hp, rfl⟩ := h
    obtain ⟨l, hl, hP⟩ := findPath_get? _ _ _ hp
    exact ⟨tgt, p, l, rfl, hp, rfl, get?_append _ _ _ _ _ ht hl, hP⟩

theorem prepend_ok (f : Forest) (col card : Path) (hw : Path.within card col = false) :
    ∃ f', f.prepend col card = .ok f' := by
  unfold Forest.prepend
  simp only [hw]
  cases f.get? card with
  | none => exact ⟨_, rfl⟩
  | some c => exact ⟨_, rfl⟩

/-- The synchronous part of `dropTask` once the drop target is known to be an element
and the browser has read the selector of the card as `query`. -/
theorem dropTaskSync_read (eng : SelectorEngine) (pg : Page) (target : Path) (tgt : Elem)
    (query : Forest → Option Path)
    (ht : pg.dom.get? target = some tgt) (hsel : eng.task pg.draggedId.toStr = .ok query) :
    dropTaskSync eng pg target =
      match dropColumn pg.dom target, query pg.dom with
      | some col, some card =>
        match pg.dom.prepend col card with
        | .error er => .error er
        | .ok dom1 => .ok (dom1, JSVal.ofOption (tgt.attr "data-state"))
      | _, _ => .ok (pg.dom, JSVal.ofOption (tgt.attr "data-state")) := by
  simp only [dropTaskSync, ht, hsel, dropColumn]

/-- The synchronous part of `dropTask` when the reference is plain text and the drop
target is an element. -/
theorem dropTaskSync_plain (eng : SelectorEngine) (pg : Page) (target : Path) (tgt : Elem)
    (ht : pg.dom.get? target = some tgt) (hplain : cssPlain pg.draggedId.toStr = true) :
    dropTaskSync eng pg target =
      match dropColumn pg.dom target, taskCard pg.dom pg.draggedId.toStr with
      | some col, some card =>
        match pg.dom.prepend col card with
        | .error er => .error er
        | .ok dom1 => .ok (dom1, JSVal.ofOption (tgt.attr "data-state"))
      | _, _ => .ok (pg.dom, JSVal.ofOption (tgt.attr "data-state")) :=
  dropTaskSync_read eng pg target tgt _ ht (eng.task_plain _ hplain)

/-- On a plain reference every engine gives `dropTask` the same run. -/
theorem dropTask_plain_engine (eng : SelectorEngine) (pg : Page) (target : Path)
    (patch : FetchOutcome) (hplain : cssPlain pg.draggedId.toStr = true) :
    dropTask eng pg target patch = dropTask strictSelectors pg target patch := by
  have h : dropTaskSync eng pg target = dropTaskSync strictSelectors pg target := by
    cases ht : pg.dom.get? target with
    | none => simp [dropTaskSync, ht]
    | some tgt =>
      rw [dropTaskSync_plain eng pg target tgt ht hplain,
        dropTaskSync_plain strictSelectors pg target tgt ht hplain]
  simp only [dropTask, h]

/-- C2 (amended): when the drop target holds a `.list`, a card carries the recorded
reference (a plain text) and that card is neither the list nor one of its ancestors, the
synchronous part of `dropTask` leaves the card as the first child of the list, and the
DOM `dropTask` ends with is that very DOM whatever the outcome of the `PATCH`. -/
theorem C2_card_moved_to_front (eng : SelectorEngine) (pg : Page) (target col card : Path)
    (hplain : cssPlain pg.draggedId.toStr = true)
    (hcol : dropColumn pg.dom target = some col)
    (hcard : taskCard pg.dom pg.draggedId.toStr = some card)
    (hw : Path.within card col = false) :
    ∃ c l l' d state, pg.dom.get? card = some c ∧ pg.dom.get? col = some l
      ∧ dropTaskSync eng pg target = .ok (d, state)
      ∧ d.get? (Path.afterRemoval card col) = some l'
      ∧ l'.key = l.key ∧ l'.attrs = l.attrs ∧ l'.kids.firstElem = some c
      ∧ ∀ patch, (dropTask eng pg target patch).dom = d
        ∧ (dropTask eng pg target patch).settled = .fulfilled := by
  obtain ⟨tgt, p, l, ht, _, _, hl, _⟩ := dropColumn_some _ _ _ hcol
  obtain ⟨c, hc, _⟩ := findPath_get? _ _ _ hcard
  obtain ⟨f', l', hpre, hget, hk, ha, hfirst⟩ := prepend_first pg.dom col card l c hl hc hw
  have hsync := dropTaskSync_plain eng pg target tgt ht hplain
  simp only [hcol, hcard, hpre] at hsync
  refine ⟨c, l, l', f', _, hc, hl, hsync, hget, hk, ha, hfirst, ?_⟩
  intro patch
  simp only [dropTask, hsync, and_self]

/-- Card 7 dropped on the second column of the board. -/
theorem C2_card_moved_to_front_witness :
    cssPlain (JSVal.str "7").toStr = true
    ∧ dropColumn boardDom [1] = some [1, 0]
    ∧ taskCard boardDom "7" = some [0, 0, 0]
    ∧ ∃ c l l' d state, boardDom.get? [0, 0, 0] = some c ∧ boardDom.get? [1, 0] = some l
      ∧ dropTaskSync strictSelectors ⟨boardDom, .str "7", ""⟩ [1] = .ok (d, state)
      ∧ d.get? (Path.afterRemoval [0, 0, 0] [1, 0]) = some l'
      ∧ l'.key = l.key ∧ l'.attrs = l.attrs ∧ l'.kids.firstElem = some c
      ∧ ∀ patch, (dropTask strictSelectors ⟨boardDom, .str "7", ""⟩ [1] patch).dom = d
        ∧ (dropTask strictSelectors ⟨boardDom, .str "7", ""⟩ [1] patch).settled
            = .fulfilled :=
  ⟨by decide, by decide, by decide,
    C2_card_moved_to_front strictSelectors ⟨boardDom, .str "7", ""⟩ [1] [1, 0] [0, 0, 0]
      (by decide) (by decide) (by decide) (by decide)⟩

/-- C2 (counterexample): the card with the dragged reference contains the drop target.
The `.list` and the card both exist, `prepend` throws, the card is not moved and the
list stays empty. -/
theorem C2_card_enclosing_list_not_moved :
    dropColumn nestedDom [0, 0] = some [0, 0, 0]
    ∧ taskCard nestedDom "7" = some [0]
    ∧ (∀ eng patch, (dropTask eng ⟨nestedDom, .str "7", ""⟩ [0, 0] patch).dom = nestedDom)
    ∧ (nestedDom.get? [0, 0, 0]).map (fun l => l.kids) = some .nil := by
  refine ⟨by decide, by decide, ?_, by decide⟩
  intro eng patch
  rw [dropTask_plain_engine eng _ _ _ (by decide)]
  cases patch <;> rfl

/-- The synchronous part of `dropTask` does not throw when the browser accepts the
selector of the card and the element it returns does not enclose the destination list. -/
theorem dropTaskSync_ok (eng : SelectorEngine) (pg : Page) (target : Path) (tgt : Elem)
    (query : Forest → Option Path)
    (ht : pg.dom.get? target = some tgt)
    (hsel : eng.task pg.draggedId.toStr = .ok query)
    (henc : encloses (query pg.dom) (dropColumn pg.dom target) = false) :
    ∃ d, dropTaskSync eng pg target = .ok (d, JSVal.ofOption (tgt.attr "data-state")) := by
  have hsync := dropTaskSync_read eng pg target tgt query ht hsel
  cases hcol : dropColumn pg.dom target with
  | none => simp only [hcol] at hsync; exact ⟨_, hsync⟩
  | some col =>
    cases hcard : query pg.dom with
    | none => simp only [hcol, hcard] at hsync; exact ⟨_, hsync⟩
    | some card =>
      have hw : Path.within card col = false := by simpa [encloses, hcol, hcard] using henc
      obtain ⟨f', hf'⟩ := prepend_ok pg.dom col card hw
      simp only [hcol, hcard, hf'] at hsync
      exact ⟨_, hsync⟩

/-- C5 (amended): when the DOM step of `dropTask` does not throw (the browser accepts
the selector built from the recorded reference and the element it returns is neither
the destination list nor one of its ancestors) and the `PATCH` rejects, the rejection
is caught: the promise of `dropTask` is fulfilled, the failure is logged, and the three
refreshers are invoked after it. -/
theorem C5_patch_rejection_is_caught (eng : SelectorEngine) (pg : Page) (target : Path)
    (tgt : Elem) (query : Forest → Option Path)
    (ht : pg.dom.get? target = some tgt)
    (hsel : eng.task pg.draggedId.toStr = .ok query)
    (henc : encloses (query pg.dom) (dropColumn pg.dom target) = false) :
    (dropTask eng pg target .rejected).settled = .fulfilled
    ∧ (dropTask eng pg target .rejected).calls = [.widgets, .workload, .progress]
    ∧ ∃ req, (dropTask eng pg target .rejected).effects =
        [.fetch req, .consoleError "PATCH failed", .call .widgets, .call .workload,
          .call .progress] := by
  obtain ⟨d, hd⟩ := dropTaskSync_ok eng pg target tgt query ht hsel henc
  have hrun : dropTask eng pg target .rejected
      = ⟨d, [.fetch (patchRequest pg.draggedId (JSVal.ofOption (tgt.attr "data-state"))),
          .consoleError "PATCH failed", .call .widgets, .call .workload, .call .progress],
        .fulfilled⟩ := by
    simp only [dropTask, hd]; rfl
  rw [hrun]
  exact ⟨rfl, rfl, _, rfl⟩

/-- A drop on the second column of the board whose `PATCH` rejects. -/
theorem C5_patch_rejection_is_caught_witness :
    boardDom.get? [1] ≠ none
    ∧ strictSelectors.task "7" = .ok (fun dom => taskCard dom "7")
    ∧ encloses (taskCard boardDom "7") (dropColumn boardDom [1]) = false
    ∧ (dropTask strictSelectors ⟨boardDom, .str "7", ""⟩ [1] .rejected).settled = .fulfilled
    ∧ (dropTask strictSelectors ⟨boardDom, .str "7", ""⟩ [1] .rejected).calls
        = [.widgets, .workload, .progress] :=
  ⟨by decide, rfl, by decide,
    (C5_patch_rejection_is_caught strictSelectors ⟨boardDom, .str "7", ""⟩ [1] _ _ rfl rfl
      (by decide)).1,
    (C5_patch_rejection_is_caught strictSelectors ⟨boardDom, .str "7", ""⟩ [1] _ _ rfl rfl
      (by decide)).2.1⟩

/-- C5 (counterexample): a drop on a target that lies inside the dragged card, with a
`PATCH` that would reject.  `prepend` throws before the `try`: the promise of
`dropTask` is rejected and no refresher is invoked. -/
theorem C5_drop_fails_before_the_try :
    encloses (taskCard nestedDom "7") (dropColumn nestedDom [0, 0]) = true
    ∧ ∀ eng, (dropTask eng ⟨nestedDom, .str "7", ""⟩ [0, 0] .rejected).settled
          = .rejected .hierarchyRequest
        ∧ (dropTask eng ⟨nestedDom, .str "7", ""⟩ [0, 0] .rejected).calls = [] := by
  refine ⟨by decide, fun eng => ?_⟩
  rw [dropTask_plain_engine eng _ _ _ (by decide)]
  exact ⟨rfl, rfl⟩

/-- C8 (amended): when the DOM step of `dropTask` does not throw (the browser accepts
the selector built from the recorded reference and the element it returns is neither
the destination list nor one of its ancestors), `dropTask` issues exactly one request,
whether or not a card was moved: `PATCH /tasks/<draggedId>` with header
`Content-Type: application/json` and the body `JSON.stringify({ state })`, an object
with the single key `state` when the drop target has a `data-state` attribute and the
empty object when it has none.  `dragTask` records `dataset.task` of its element over
any previous value. -/
theorem C8_one_patch_request (eng : SelectorEngine) (pg : Page) (target : Path) (tgt : Elem)
    (query : Forest → Option Path) (patch : FetchOutcome)
    (ht : pg.dom.get? target = some tgt)
    (hsel : eng.task pg.draggedId.toStr = .ok query)
    (henc : encloses (query pg.dom) (dropColumn pg.dom target) = false) :
    (dropTask eng pg target patch).requests =
      [⟨"PATCH", "/tasks/" ++ pg.draggedId.toStr, [("Content-Type", "application/json")],
        some (match tgt.attr "data-state" with
          | some s => "\x7b\"state\":" ++ jsonQuote s ++ "\x7d"
          | none => "\x7b\x7d")⟩]
    ∧ ∀ (pg0 : Page) (src : Path) (s : Elem), pg0.dom.get? src = some s →
        dragTask pg0 src = .ok { pg0 with draggedId := JSVal.ofOption (s.attr "data-task") } := by
  constructor
  · obtain ⟨d, hd⟩ := dropTaskSync_ok eng pg target tgt query ht hsel henc
    simp only [dropTask, hd]
    cases hs : tgt.attr "data-state" <;> cases patch <;> rfl
  · intro pg0 src s hs
    simp [dragTask, hs]

/-- Card 7 dropped on the column `done`: one `PATCH /tasks/7`. -/
theorem C8_one_patch_request_witness :
    boardDom.get? [1] ≠ none
    ∧ strictSelectors.task "7" = .ok (fun dom => taskCard dom "7")
    ∧ encloses (taskCard boardDom "7") (dropColumn boardDom [1]) = false
    ∧ (dropTask strictSelectors ⟨boardDom, .str "7", ""⟩ [1] .rejected).requests =
      [⟨"PATCH", "/tasks/7", [("Content-Type", "application/json")],
        some "\x7b\"state\":\"done\"\x7d"⟩] :=
  ⟨by decide, rfl, by decide,
    (C8_one_patch_request strictSelectors ⟨boardDom, .str "7", ""⟩ [1] _ _ .rejected rfl rfl
      (by decide)).1⟩

/-- C8 (counterexample): dropping on a target that lies inside the dragged card.
`prepend` throws before the `try` and no request is issued. -/
theorem C8_no_request_when_prepend_throws :
    dropColumn nestedDom [0, 0] = some [0, 0, 0]
    ∧ ∀ eng, (dropTask eng ⟨nestedDom, .str "7", ""⟩ [0, 0]
          (.responded ⟨true, "", none⟩)).requests = []
        ∧ (dropTask eng ⟨nestedDom, .str "7", ""⟩ [0, 0]
          (.responded ⟨true, "", none⟩)).settled = .rejected .hierarchyRequest := by
  refine ⟨by decide, fun eng => ?_⟩
  rw [dropTask_plain_engine eng _ _ _ (by decide)]
  exact ⟨rfl, rfl⟩

/-- `dropTask` invokes the three refreshers once each, in order, whatever the outcome of
the `PATCH`, when its DOM step does not throw. -/
theorem dropTask_calls (eng : SelectorEngine) (pg : Page) (target : Path) (tgt : Elem)
    (query : Forest → Option Path) (patch : FetchOutcome)
    (ht : pg.dom.get? target = some tgt)
    (hsel : eng.task pg.draggedId.toStr = .ok query)
    (henc : encloses (query pg.dom) (dropColumn pg.dom target) = false) :
    (dropTask eng pg target patch).calls = [.widgets, .workload, .progress] := by
  obtain ⟨d, hd⟩ := dropTaskSync_ok eng pg target tgt query ht hsel henc
  simp only [dropTask, hd]
  cases patch <;> rfl

/-- The `task_updated` listener once the browser has read its selectors. -/
theorem onTaskUpdated_read (eng : SelectorEngine) (pg : Page) (id state : JSVal)
    (query find : Forest → Option Path)
    (hid : eng.task id.toStr = .ok query) (hst : eng.column state.toStr = .ok find) :
    onTaskUpdated eng pg id state =
      match query pg.dom with
      | none => ⟨pg.dom, refreshAll, .fulfilled⟩
      | some card =>
        if state.truthy then
          match find pg.dom with
          | none => ⟨pg.dom, refreshAll, .fulfilled⟩
          | some col =>
            match pg.dom.prepend col card with
            | .error er => ⟨pg.dom, [], .rejected er⟩
            | .ok dom1 => ⟨dom1, refreshAll, .fulfilled⟩
        else ⟨pg.dom, refreshAll, .fulfilled⟩ := by
  simp only [onTaskUpdated, hid, hst]

/-- The `task_updated` listener for plain payload fields. -/
theorem onTaskUpdated_plain (eng : SelectorEngine) (pg : Page) (id state : JSVal)
    (hid : cssPlain id.toStr = true) (hst : cssPlain state.toStr = true) :
    onTaskUpdated eng pg id state =
      match taskCard pg.dom id.toStr with
      | none => ⟨pg.dom, refreshAll, .fulfilled⟩
      | some card =>
        if state.truthy then
          match pushColumn pg.dom state.toStr with
          | none => ⟨pg.dom, refreshAll, .fulfilled⟩
          | some col =>
            match pg.dom.prepend col card with
            | .error er => ⟨pg.dom, [], .rejected er⟩
            | .ok dom1 => ⟨dom1, refreshAll, .fulfilled⟩
        else ⟨pg.dom, refreshAll, .fulfilled⟩ :=
  onTaskUpdated_read eng pg id state _ _ (eng.task_plain _ hid) (eng.column_plain _ hst)

/-- On plain payload fields every engine gives the listener the same run. -/
theorem onTaskUpdated_plain_engine (eng : SelectorEngine) (pg : Page) (id state : JSVal)
    (hid : cssPlain id.toStr = true) (hst : cssPlain state.toStr = true) :
    onTaskUpdated eng pg id state = onTaskUpdated strictSelectors pg id state := by
  rw [onTaskUpdated_plain eng pg id state hid hst,
    onTaskUpdated_plain strictSelectors pg id state hid hst]

/-- C3 (counterexample): the page holds a card with `data-task="7"` and a container with
`data-state="done"` and a nested `.list`, but the container lacks the class `col`: the
listener leaves the page as it is, the card outside the container. -/
theorem C3_container_without_col_class :
    taskCard plainColumnDom "7" = some [1]
    ∧ (plainColumnDom.get? [0]).map (fun e => (e.attr "data-state", e.kids.findPath (hasClass "list")))
        = some (some "done", some [0])
    ∧ (∀ eng, (onTaskUpdated eng ⟨plainColumnDom, .null, ""⟩ (.str "7") (.str "done")).dom
        = plainColumnDom)
    ∧ (plainColumnDom.get? [0, 0]).map (fun l => l.kids) = some .nil := by
  refine ⟨by decide, by decide, fun eng => ?_, by decide⟩
  rw [onTaskUpdated_plain_engine eng _ _ _ (by decide) (by decide)]
  decide

/-- The `task_updated` listener invokes the three refreshers once each, in order, when
its DOM step does not throw: the browser accepts both selectors and the card is neither
the destination list nor one of its ancestors. -/
theorem onTaskUpdated_calls (eng : SelectorEngine) (pg : Page) (id state : JSVal)
    (query find : Forest → Option Path)
    (hid : eng.task id.toStr = .ok query) (hst : eng.column state.toStr = .ok find)
    (henc : encloses (query pg.dom) (find pg.dom) = false) :
    (onTaskUpdated eng pg id state).calls = [.widgets, .workload, .progress] := by
  rw [onTaskUpdated_read eng pg id state query find hid hst]
  cases hcard : query pg.dom with
  | none => rfl
  | some card =>
    simp only []
    split
    · cases hcol : find pg.dom with
      | none => rfl
      | some col =>
        have hw : Path.within card col = false := by simpa [encloses, hcol, hcard] using henc
        obtain ⟨f', hf'⟩ := prepend_ok pg.dom col card hw
        simp only [hf']
        rfl
    · rfl

/-- C4 (failing input): a push event `{id: "7", state: "done"}` on a page whose card 7
contains the column `done` and its list.  `col.prepend(card)` throws inside the
listener, which ends there: no refresher is invoked. -/
theorem C4_push_throws_before_refreshers :
    taskCard nestedColDom "7" = some [0]
    ∧ pushColumn nestedColDom "done" = some [0, 0, 0]
    ∧ ∀ eng, (onTaskUpdated eng ⟨nestedColDom, .null, ""⟩ (.str "7") (.str "done")).calls = []
        ∧ (onTaskUpdated eng ⟨nestedColDom, .null, ""⟩ (.str "7") (.str "done")).settled
          = .rejected .hierarchyRequest := by
  refine ⟨by decide, by decide, fun eng => ?_⟩
  rw [onTaskUpdated_plain_engine eng _ _ _ (by decide) (by decide)]
  decide

theorem bump_append (a r : Path) (ha : a ≠ []) : Path.bump (a ++ r) = Path.bump a ++ r := by
  cases a with
  | nil => exact absurd rfl ha
  | cons i a => rfl

/-- The element `findUnder` returns lies below an element satisfying the ancestor part. -/
theorem findUnder_ancestor (A P : Elem → Bool) (f : Forest) : ∀ (inside : Bool) (p : Path),
    f.findUnder A P inside = some p →
    inside = true ∨ ∃ a r anc, p = a ++ r ∧ r ≠ [] ∧ f.get? a = some anc ∧ A anc = true := by
  induction f with
  | nil => intro i p h; simp [Forest.findUnder] at h
  | text s rest ih =>
    intro i p h
    simp only [Forest.findUnder, Option.map_eq_some'] at h
    obtain ⟨p', h1, rfl⟩ := h
    rcases ih i p' h1 with hi | ⟨a, r, anc, rfl, hr, ha, hA⟩
    · exact Or.inl hi
    · right
      have hne : a ≠ [] := fun e => by rw [e, get?_nil] at ha; cases ha
      exact ⟨Path.bump a, r, anc, bump_append a r hne, hr, by rw [get?_bump_text]; exact ha, hA⟩
  | elem k at' w kids rest ihk ihr =>
    intro i p h
    simp only [Forest.findUnder] at h
    split at h
    · rename_i hP
      simp only [Bool.and_eq_true] at hP
      exact Or.inl hP.1
    · split at h
      · rename_i p' hk
        cases h
        rcases ihk _ p' hk with hi | ⟨a, r, anc, rfl, hr, ha, hA⟩
        · simp only [Bool.or_eq_true] at hi
          rcases hi with hi | hi
          · exact Or.inl hi
          · right
            obtain ⟨e, he, _⟩ := findUnder_get? _ _ _ _ _ hk
            have hne : p' ≠ [] := fun e' => by rw [e', get?_nil] at he; cases he
            exact ⟨[0], p', _, rfl, hne, rfl, hi⟩
        · right
          exact ⟨0 :: a, r, anc, rfl, hr, get?_zero_cons _ _ _ _ _ _ _ ha, hA⟩
      · simp only [Option.map_eq_some'] at h
        obtain ⟨p', h1, rfl⟩ := h
        rcases ihr i p' h1 with hi | ⟨a, r, anc, rfl, hr, ha, hA⟩
        · exact Or.inl hi
        · right
          have hne : a ≠ [] := fun e => by rw [e, get?_nil] at ha; cases ha
          exact ⟨Path.bump a, r, anc, bump_append a r hne, hr, by rw [get?_bump]; exact ha, hA⟩

theorem within_append (c : Path) : ∀ (a r : Path),
    Path.within c a = true → Path.within c (a ++ r) = true := by
  induction c with
  | nil => intro a r _; simp [Path.within]
  | cons i c ih =>
    intro a r h
    cases a with
    | nil => simp [Path.within] at h
    | cons j a =>
      simp only [Path.within, Bool.and_eq_true, List.cons_append] at h ⊢
      exact ⟨h.1, ih a r h.2⟩

theorem afterRemoval_ne_nil (c q : Path) (hq : q ≠ []) : Path.afterRemoval c q ≠ [] := by
  cases q with
  | nil => exact absurd rfl hq
  | cons j q =>
    match c with
    | [] => simp [Path.afterRemoval]
    | [i] => simp only [Path.afterRemoval]; split <;> simp
    | i :: k :: c => simp only [Path.afterRemoval]; split <;> simp

/-- Detaching a node keeps a descendant below its ancestor. -/
theorem afterRemoval_append (c : Path) : ∀ (a r : Path), a ≠ [] → r ≠ [] →
    ∃ r', r' ≠ [] ∧ Path.afterRemoval c (a ++ r) = Path.afterRemoval c a ++ r' := by
  induction c with
  | nil => intro a r _ hr; exact ⟨r, hr, by simp [Path.afterRemoval]⟩
  | cons i c ih =>
    intro a r ha hr
    cases a with
    | nil => exact absurd rfl ha
    | cons j a =>
      cases c with
      | nil =>
        refine ⟨r, hr, ?_⟩
        simp only [List.cons_append, Path.afterRemoval]
        split <;> rfl
      | cons k c =>
        simp only [List.cons_append, Path.afterRemoval]
        by_cases hij : i = j
        · simp only [hij, if_true]
          cases a with
          | nil =>
            refine ⟨Path.afterRemoval (k :: c) r, afterRemoval_ne_nil _ _ hr, ?_⟩
            cases r with
            | nil => exact absurd rfl hr
            | cons x r => simp [Path.afterRemoval]
          | cons y a =>
            obtain ⟨r', hr', e⟩ := ih (y :: a) r (by simp) hr
            exact ⟨r', hr', by
              show j :: Path.afterRemoval (k :: c) (y :: a ++ r) = _
              rw [e]; rfl⟩
        · simp only [hij, if_false]
          exact ⟨r, hr, rfl⟩

/-- Rewriting a descendant keeps the identity and the attributes of an ancestor. -/
theorem get?_modifyAt_above (g : Elem → Elem) (f : Forest) : ∀ (a r : Path) (e : Elem),
    r ≠ [] → f.get? a = some e →
    ∃ e', (f.modifyAt g (a ++ r)).get? a = some e' ∧ e'.key = e.key ∧ e'.attrs = e.attrs := by
  induction f with
  | nil => intro a r e _ h; simp [Forest.get?] at h
  | text s rest ih =>
    intro a r e hr h
    match a with
    | [] => simp [Forest.get?] at h
    | 0 :: _ => simp [Forest.get?] at h
    | (i + 1) :: a =>
      simp only [Forest.get?] at h
      obtain ⟨e', h1, h2⟩ := ih (i :: a) r e hr h
      exact ⟨e', by simpa [Forest.modifyAt, Forest.get?] using h1, h2⟩
  | elem k at' w kids rest ihk ihr =>
    intro a r e hr h
    match a with
    | [] => simp [Forest.get?] at h
    | [0] =>
      simp only [Forest.get?, Option.some.injEq] at h
      subst h
      cases r with
      | nil => exact absurd rfl hr
      | cons x r => exact ⟨_, rfl, rfl, rfl⟩
    | 0 :: j :: a =>
      simp only [Forest.get?] at h
      obtain ⟨e', h1, h2⟩ := ihk (j :: a) r e hr h
      exact ⟨e', by simpa [Forest.modifyAt, Forest.get?] using h1, h2⟩
    | (i + 1) :: a =>
      simp only [Forest.get?] at h
      obtain ⟨e', h1, h2⟩ := ihr (i :: a) r e hr h
      exact ⟨e', by simpa [Forest.modifyAt, Forest.get?] using h1, h2⟩

/-- After `prepend`, the column is still below each of its ancestors. -/
theorem prepend_keeps_ancestor (f f' : Forest) (a r card : Path) (anc : Elem)
    (hr : r ≠ []) (ha : f.get? a = some anc)
    (hw : Path.within card (a ++ r) = false) (hc : f.get? card ≠ none)
    (hpre : f.prepend (a ++ r) card = .ok f') :
    ∃ a' r' anc', Path.afterRemoval card (a ++ r) = a' ++ r' ∧ r' ≠ []
      ∧ f'.get? a' = some anc' ∧ anc'.key = anc.key ∧ anc'.attrs = anc.attrs := by
  have hne : a ≠ [] := fun e => by rw [e, get?_nil] at ha; cases ha
  have hwa : Path.within card a = false := by
    cases hh : Path.within card a with
    | false => rfl
    | true => rw [within_append card a r hh] at hw; cases hw
  obtain ⟨r', hr', e⟩ := afterRemoval_append card a r hne hr
  obtain ⟨anc0, h0, hk0, ha0, _⟩ := get?_removeAt f card a anc hwa ha
  cases hcc : f.get? card with
  | none => exact absurd hcc hc
  | some c =>
    simp only [Forest.prepend, hw, hcc, Bool.false_eq_true, if_false, Except.ok.injEq] at hpre
    subst hpre
    rw [e]
    obtain ⟨anc', h1, hk1, ha1⟩ := get?_modifyAt_above
      (fun l => { l with kids := Forest.cons c l.kids }) _ _ r' anc0 hr' h0
    exact ⟨_, r', anc', rfl, hr', h1, hk1.trans hk0, ha1.trans ha0⟩

/-- C3 (amended): for a push event whose `id` is a plain text and whose `state` is a
non-empty plain text, if a card carries `id`, a `.list` lies below an element of class
`col` whose `data-state` is `state`, and the card is neither that list nor one of its
ancestors, then after the listener the card is the first child of the first such list,
which still lies below an element of class `col` with that `data-state`. -/
theorem C3_push_moves_card (eng : SelectorEngine) (pg : Page) (id : JSVal) (s : String)
    (col card : Path)
    (hid : cssPlain id.toStr = true) (hs : s ≠ "") (hsp : cssPlain s = true)
    (hcard : taskCard pg.dom id.toStr = some card)
    (hcol : pushColumn pg.dom s = some col)
    (hw : Path.within card col = false) :
    ∃ c l l', pg.dom.get? card = some c ∧ pg.dom.get? col = some l
      ∧ hasClass "list" l = true
      ∧ (onTaskUpdated eng pg id (.str s)).dom.get? (Path.afterRemoval card col) = some l'
      ∧ l'.key = l.key ∧ l'.attrs = l.attrs ∧ l'.kids.firstElem = some c
      ∧ (onTaskUpdated eng pg id (.str s)).settled = .fulfilled
      ∧ ∃ a r cont, Path.afterRemoval card col = a ++ r ∧ r ≠ []
        ∧ (onTaskUpdated eng pg id (.str s)).dom.get? a = some cont
        ∧ hasClass "col" cont = true ∧ cont.attr "data-state" = some s := by
  obtain ⟨c, hc, _⟩ := findPath_get? _ _ _ hcard
  obtain ⟨l, hl, hP⟩ := findUnder_get? _ _ _ _ _ hcol
  obtain ⟨f', l', hpre, hget, hk, ha, hfirst⟩ := prepend_first pg.dom col card l c hl hc hw
  have hrun := onTaskUpdated_plain eng pg id (.str s) hid hsp
  have ht : (JSVal.str s).truthy = true := by simpa [JSVal.truthy] using hs
  have hstr : (JSVal.str s).toStr = s := rfl
  simp only [hcard, ht, if_true, hstr, hcol, hpre] at hrun
  refine ⟨c, l, l', hc, hl, hP, by rw [hrun]; exact hget, hk, ha, hfirst, by rw [hrun], ?_⟩
  rcases findUnder_ancestor _ _ _ _ _ hcol with hi | ⟨a, r, anc, rfl, hr, hanc, hA⟩
  · cases hi
  · obtain ⟨a', r', anc', e, hr', h1, _, hat⟩ := prepend_keeps_ancestor pg.dom f' a r card anc
      hr hanc hw (by rw [hc]; simp) hpre
    simp only [Bool.and_eq_true, beq_iff_eq] at hA
    refine ⟨a', r', anc', e, hr', by rw [hrun]; exact h1, ?_, ?_⟩
    · have : hasClass "col" anc' = hasClass "col" anc := by
        simp only [hasClass, Elem.attr, hat]
      rw [this]; exact hA.1
    · have : anc'.attr "data-state" = anc.attr "data-state" := by
        simp only [Elem.attr, hat]
      rw [this]; exact hA.2

/-- A push event moving card 8 to the column `todo` of the board. -/
theorem C3_push_moves_card_witness :
    cssPlain (JSVal.str "8").toStr = true ∧ "todo" ≠ "" ∧ cssPlain "todo" = true
    ∧ taskCard boardDom "8" = some [1, 0, 0] ∧ pushColumn boardDom "todo" = some [0, 0]
    ∧ ∃ c l l', boardDom.get? [1, 0, 0] = some c ∧ boardDom.get? [0, 0] = some l
      ∧ hasClass "list" l = true
      ∧ (onTaskUpdated strictSelectors ⟨boardDom, .null, ""⟩ (.str "8") (.str "todo")).dom.get?
          (Path.afterRemoval [1, 0, 0] [0, 0]) = some l'
      ∧ l'.key = l.key ∧ l'.attrs = l.attrs ∧ l'.kids.firstElem = some c
      ∧ (onTaskUpdated strictSelectors ⟨boardDom, .null, ""⟩ (.str "8") (.str "todo")).settled = .fulfilled
      ∧ ∃ a r cont, Path.afterRemoval [1, 0, 0] [0, 0] = a ++ r ∧ r ≠ []
        ∧ (onTaskUpdated strictSelectors ⟨boardDom, .null, ""⟩ (.str "8") (.str "todo")).dom.get? a
            = some cont
        ∧ hasClass "col" cont = true ∧ cont.attr "data-state" = some "todo" :=
  ⟨by decide, by decide, by decide, by decide, by decide,
    C3_push_moves_card strictSelectors ⟨boardDom, .null, ""⟩ (.str "8") "todo" [0, 0] [1, 0, 0]
      (by decide) (by decide) (by decide) (by decide) (by decide) (by decide)⟩

theorem hasId_iff (i : String) (k : Nat) (a : Attrs) (w : String) (kids : Forest) :
    hasId i ⟨k, a, w, kids⟩ = true ↔ a.lookup "id" = some i := by
  simp [hasId, Elem.attr]

theorem mem_ids_elem (i : String) (k : Nat) (a : Attrs) (w : String) (kids rest : Forest) :
    i ∈ (Forest.elem k a w kids rest).ids ↔
      a.lookup "id" = some i ∨ i ∈ kids.ids ∨ i ∈ rest.ids := by
  simp only [Forest.ids, List.mem_append]
  cases h : a.lookup "id" with
  | none => simp
  | some j => simp [eq_comm]

theorem findPath_hasId_none (i : String) (f : Forest) :
    f.findPath (hasId i) = none ↔ i ∉ f.ids := by
  induction f with
  | nil => simp [Forest.findPath, Forest.ids]
  | text s rest ih => simp [Forest.findPath, Forest.ids, ih]
  | elem k a w kids rest ihk ihr =>
    rw [mem_ids_elem]
    simp only [Forest.findPath]
    by_cases h : hasId i ⟨k, a, w, kids⟩ = true
    · simp [h, (hasId_iff i k a w kids).1 h]
    · have h' : ¬ a.lookup "id" = some i := fun e => h ((hasId_iff i k a w kids).2 e)
      simp only [h, h', false_or, not_or]
      cases hk : kids.findPath (hasId i) with
      | some p =>
        have : ¬ (i ∉ kids.ids) := fun e => by rw [ihk.2 e] at hk; cases hk
        simp [this]
      | none =>
        simp [ihk.1 hk, ihr]

theorem applyAll_of_not_mem (o : Write) (f : Forest) (h : o.id ∉ f.ids) :
    o.applyAll f = f := by
  induction f with
  | nil => rfl
  | text s rest ih => simp only [Write.applyAll]; rw [ih (by simpa [Forest.ids] using h)]
  | elem k a w kids rest ihk ihr =>
    rw [mem_ids_elem] at h
    simp only [not_or] at h
    have h' : ¬ hasId o.id ⟨k, a, w, kids⟩ = true := fun e => h.1 ((hasId_iff _ k a w kids).1 e)
    simp [Write.applyAll, h', ihk h.2.1, ihr h.2.2]

theorem modifyAt_bump (g : Elem → Elem) (k : Nat) (a : Attrs) (w : String)
    (kids rest : Forest) (p : Path) (e : Elem) (h : rest.get? p = some e) :
    (Forest.elem k a w kids rest).modifyAt g (Path.bump p)
      = .elem k a w kids (rest.modifyAt g p) := by
  cases p with
  | nil => rw [get?_nil] at h; cases h
  | cons i p => rfl

theorem modifyAt_bump_text (g : Elem → Elem) (s : String) (rest : Forest) (p : Path)
    (e : Elem) (h : rest.get? p = some e) :
    (Forest.text s rest).modifyAt g (Path.bump p) = .text s (rest.modifyAt g p) := by
  cases p with
  | nil => rw [get?_nil] at h; cases h
  | cons i p => rfl

theorem modifyAt_zero_cons (g : Elem → Elem) (k : Nat) (a : Attrs) (w : String)
    (kids rest : Forest) (p : Path) (e : Elem) (h : kids.get? p = some e) :
    (Forest.elem k a w kids rest).modifyAt g (0 :: p)
      = .elem k a w (kids.modifyAt g p) rest := by
  cases p with
  | nil => rw [get?_nil] at h; cases h
  | cons i p => rfl

/-- With unique ids, writing to the element `getElementById` returns is writing to every
element carrying the id. -/
theorem applyFirst_eq_applyAll (o : Write) (f : Forest) (hu : uniqueIds f) :
    o.applyFirst f = o.applyAll f := by
  unfold uniqueIds at hu
  induction f with
  | nil => rfl
  | text s rest ih =>
    have ih := ih (by simpa [Forest.ids] using hu)
    simp only [Write.applyFirst, Forest.findPath, Write.applyAll] at ih ⊢
    cases hf : rest.findPath (hasId o.id) with
    | none => rw [hf] at ih; simp only [modifyIfFound] at ih; simp [modifyIfFound, ← ih]
    | some p =>
      rw [hf] at ih
      obtain ⟨e, he, _⟩ := findPath_get? _ _ _ hf
      simp only [modifyIfFound, Option.map_some'] at ih ⊢
      rw [modifyAt_bump_text _ _ _ _ e he, ih]
  | elem k a w kids rest ihk ihr =>
    simp only [Forest.ids] at hu
    have hu2 := (List.nodup_append.1 hu).2.1
    have hkr := List.nodup_append.1 hu2
    have ihk := ihk hkr.1
    have ihr := ihr hkr.2.1
    simp only [Write.applyFirst, Forest.findPath, Write.applyAll] at ihk ihr ⊢
    by_cases h : hasId o.id ⟨k, a, w, kids⟩ = true
    · have hid := (hasId_iff _ k a w kids).1 h
      rw [hid] at hu
      have hdis := (List.nodup_append.1 hu).2.2
      have hnk : o.id ∉ kids.ids := fun hm =>
        hdis (List.mem_singleton_self _) (List.mem_append_left _ hm)
      have hnr : o.id ∉ rest.ids := fun hm =>
        hdis (List.mem_singleton_self _) (List.mem_append_right _ hm)
      simp only [h, if_true, modifyIfFound, Forest.modifyAt, applyAll_of_not_mem o kids hnk,
        applyAll_of_not_mem o rest hnr]
      cases o.isLabel <;> simp [setTextContent, setWidth, Forest.cons, textNode]
    · simp only [h, Bool.false_eq_true, if_false]
      cases hf : kids.findPath (hasId o.id) with
      | some p =>
        rw [hf] at ihk
        obtain ⟨e, he, _⟩ := findPath_get? _ _ _ hf
        have hmem : o.id ∈ kids.ids := by
          by_contra hc
          rw [(findPath_hasId_none _ _).2 hc] at hf; cases hf
        have hnr : o.id ∉ rest.ids := fun hm => hkr.2.2 hmem hm
        simp only [modifyIfFound] at ihk ⊢
        rw [modifyAt_zero_cons _ _ _ _ _ _ _ e he, ihk, applyAll_of_not_mem o rest hnr]
      | none =>
        rw [hf] at ihk
        simp only [modifyIfFound] at ihk
        rw [← ihk]
        cases hr : rest.findPath (hasId o.id) with
        | none => rw [hr] at ihr; simp only [modifyIfFound] at ihr; simp [modifyIfFound, ← ihr]
        | some p =>
          rw [hr] at ihr
          obtain ⟨e, he, _⟩ := findPath_get? _ _ _ hr
          simp only [modifyIfFound, Option.map_some'] at ihr ⊢
          rw [modifyAt_bump _ _ _ _ _ _ _ e he, ihr]

theorem ids_textNode (t : String) : (textNode t).ids = [] := by
  unfold textNode; split <;> rfl

theorem ids_applyAll_sublist (o : Write) (f : Forest) : (o.applyAll f).ids.Sublist f.ids := by
  induction f with
  | nil => exact List.Sublist.refl _
  | text s rest ih => simpa [Write.applyAll, Forest.ids] using ih
  | elem k a w kids rest ihk ihr =>
    simp only [Write.applyAll]
    split
    · split
      · simp only [Forest.ids, ids_textNode, List.nil_append]
        exact List.Sublist.append (List.Sublist.refl _)
          (ihr.trans (List.sublist_append_right _ _))
      · simp only [Forest.ids]
        exact List.Sublist.append (List.Sublist.refl _) (List.Sublist.append ihk ihr)
    · simp only [Forest.ids]
      exact List.Sublist.append (List.Sublist.refl _) (List.Sublist.append ihk ihr)

theorem uniqueIds_applyAll (o : Write) (f : Forest) (hu : uniqueIds f) :
    uniqueIds (o.applyAll f) :=
  List.Nodup.sublist (ids_applyAll_sublist o f) hu

theorem uniqueIds_runWrites (ws : List Write) : ∀ (f : Forest), uniqueIds f →
    uniqueIds (runWrites ws f) := by
  induction ws with
  | nil => intro f h; exact h
  | cons o ws ih => intro f h; exact ih _ (uniqueIds_applyAll o f h)

/-- A width write changes no lookup by id. -/
theorem findPath_applyAll_width (o : Write) (ho : o.isLabel = false) (x : String)
    (f : Forest) : (o.applyAll f).findPath (hasId x) = f.findPath (hasId x) := by
  induction f with
  | nil => rfl
  | text s rest ih => simp only [Write.applyAll, Forest.findPath, ih]
  | elem k a w kids rest ihk ihr =>
    have hx : ∀ w' kids', hasId x ⟨k, a, w', kids'⟩ = hasId x ⟨k, a, w, kids⟩ := fun _ _ => rfl
    simp only [Write.applyAll, ho, Bool.false_eq_true, if_false]
    split <;> simp only [Forest.findPath, ihk, ihr, hx]

theorem modifyAt_id (f : Forest) : ∀ (p : Path), f.modifyAt (fun e => e) p = f := by
  induction f with
  | nil => intro p; rfl
  | text s rest ih =>
    intro p
    match p with
    | [] => rfl
    | 0 :: _ => rfl
    | (i + 1) :: p => simp only [Forest.modifyAt, ih]
  | elem k a w kids rest ihk ihr =>
    intro p
    match p with
    | [] => rfl
    | [0] => rfl
    | 0 :: j :: p => simp only [Forest.modifyAt, ihk]
    | (i + 1) :: p => simp only [Forest.modifyAt, ihr]

theorem runWrites_append (a b : List Write) (f : Forest) :
    runWrites (a ++ b) f = runWrites b (runWrites a f) := by
  simp [runWrites, List.foldl_append]

/-- With unique ids, an assignment to `style.width` of the element found by id is the
width write it amounts to. -/
theorem assignWidth_eq_runWrites (css : StyleEngine) (i w : String) (f : Forest)
    (hu : uniqueIds f) :
    modifyIfFound (assignWidth css w) f (f.findPath (hasId i))
      = runWrites (widthWrites css i w) f := by
  unfold widthWrites
  cases h : css.width w with
  | none =>
    have e : assignWidth css w = fun e => e := by
      funext e; simp [assignWidth, h]
    rw [e]
    cases f.findPath (hasId i) with
    | none => rfl
    | some p => exact modifyAt_id f p
  | some v =>
    have e : assignWidth css w = setWidth v := by
      funext e; simp [assignWidth, h]
    rw [e]
    have := applyFirst_eq_applyAll ⟨false, i, v⟩ f hu
    simpa [Write.applyFirst, runWrites] using this

theorem findPath_widthWrites (css : StyleEngine) (i w x : String) (f : Forest) :
    (runWrites (widthWrites css i w) f).findPath (hasId x) = f.findPath (hasId x) := by
  unfold widthWrites
  cases css.width w with
  | none => rfl
  | some v => exact findPath_applyAll_width ⟨false, i, v⟩ rfl x f

/-- With unique ids, one pass of the loop performs its writes in order. -/
theorem patchRecord_eq_runWrites (css : StyleEngine) (f : Forest) (p : ProgressRecord)
    (hu : uniqueIds f) : patchRecord css f p = runWrites (recordWrites css p) f := by
  have h1 := assignWidth_eq_runWrites css ("bar-" ++ p.id) (pctWidth p) f hu
  have hu1 := uniqueIds_runWrites (widthWrites css ("bar-" ++ p.id) (pctWidth p)) f hu
  have e1 := findPath_widthWrites css ("bar-" ++ p.id) (pctWidth p) ("txt-" ++ p.id) f
  have h2 := applyFirst_eq_applyAll ⟨true, "txt-" ++ p.id, pctLabel p⟩ _ hu1
  have hu2 := uniqueIds_applyAll ⟨true, "txt-" ++ p.id, pctLabel p⟩ _ hu1
  have h3 := assignWidth_eq_runWrites css ("proj-bar-" ++ p.id) (pctWidth p) _ hu2
  have hu3 := uniqueIds_runWrites (widthWrites css ("proj-bar-" ++ p.id) (pctWidth p)) _ hu2
  have e3 := findPath_widthWrites css ("proj-bar-" ++ p.id) (pctWidth p)
    ("proj-txt-" ++ p.id)
    ((Write.mk true ("txt-" ++ p.id) (pctLabel p)).applyAll
      (runWrites (widthWrites css ("bar-" ++ p.id) (pctWidth p)) f))
  have h4 := applyFirst_eq_applyAll ⟨true, "proj-txt-" ++ p.id, pctLabel p⟩ _ hu3
  simp only [Write.applyFirst, if_true] at h2 h4
  simp only [patchRecord, recordWrites, runWrites_append]
  rw [h1, ← e1, h2, h3, ← e3, h4]
  rfl

/-- With unique ids, the loop over a list of records performs its writes in order. -/
theorem patchProgress_eq_runWrites (css : StyleEngine) (items : List ProgressRecord) :
    ∀ (f : Forest), uniqueIds f →
      patchProgress css f items = runWrites (progressWrites css items) f := by
  induction items with
  | nil => intro f _; rfl
  | cons p ps ih =>
    intro f hu
    have hp := patchRecord_eq_runWrites css f p hu
    simp only [patchProgress, List.foldl, progressWrites, runWrites_append] at ih ⊢
    rw [hp]
    exact ih _ (uniqueIds_runWrites _ _ hu)

theorem hasId_mk (x : String) (k : Nat) (a : Attrs) (w : String) (kids : Forest) :
    hasId x ⟨k, a, w, kids⟩ = (a.lookup "id" == some x) := rfl

theorem applyAll_textNode (o : Write) (t : String) : o.applyAll (textNode t) = textNode t := by
  unfold textNode; split <;> rfl

/-- A later write to the same property of the same id overrides an earlier one. -/
theorem applyAll_absorb (a b : Write) (hl : a.isLabel = b.isLabel) (hi : a.id = b.id)
    (f : Forest) : a.applyAll (b.applyAll f) = a.applyAll f := by
  induction f with
  | nil => rfl
  | text s rest ih => simp only [Write.applyAll, ih]
  | elem k at' w kids rest ihk ihr =>
    simp only [Write.applyAll, hasId_mk, ← hi, ← hl]
    by_cases h : (at'.lookup "id" == some a.id) = true
    · cases hlab : a.isLabel <;>
        simp [h, Write.applyAll, hasId_mk, hlab, ihk, ihr]
    · simp [h, Write.applyAll, hasId_mk, ihk, ihr]

/-- Writes to different properties or different ids can be exchanged. -/
theorem applyAll_comm (a b : Write) (h : a.isLabel ≠ b.isLabel ∨ a.id ≠ b.id)
    (f : Forest) : a.applyAll (b.applyAll f) = b.applyAll (a.applyAll f) := by
  induction f with
  | nil => rfl
  | text s rest ih => simp only [Write.applyAll, ih]
  | elem k at' w kids rest ihk ihr =>
    simp only [Write.applyAll, hasId_mk]
    by_cases ha : (at'.lookup "id" == some a.id) = true <;>
    by_cases hb : (at'.lookup "id" == some b.id) = true <;>
    cases hla : a.isLabel <;> cases hlb : b.isLabel <;>
    simp [ha, hb, Write.applyAll, hasId_mk, hla, hlb, ihk, ihr, applyAll_textNode]
    all_goals
      exfalso
      simp only [beq_iff_eq] at ha hb
      rw [ha] at hb
      simp only [Option.some.injEq] at hb
      rcases h with h | h
      · exact h (by rw [hla, hlb])
      · exact h hb

theorem runWrites_cons (o : Write) (ws : List Write) (f : Forest) :
    runWrites (o :: ws) f = runWrites ws (o.applyAll f) := rfl

/-- A write followed later by a write to the same property of the same id can be
dropped. -/
theorem runWrites_drop_overridden (o o' : Write) (hl : o'.isLabel = o.isLabel)
    (hi : o'.id = o.id) (s : List Write) : ∀ (f : Forest),
    runWrites (o :: (s ++ [o'])) f = runWrites (s ++ [o']) f := by
  induction s with
  | nil =>
    intro f
    simp only [List.nil_append, runWrites_cons]
    show o'.applyAll (o.applyAll f) = o'.applyAll f
    exact applyAll_absorb o' o hl hi f
  | cons y s ih =>
    intro f
    simp only [List.cons_append, runWrites_cons]
    by_cases h : y.isLabel = o.isLabel ∧ y.id = o.id
    · rw [applyAll_absorb y o h.1 h.2]
    · have hne : y.isLabel ≠ o.isLabel ∨ y.id ≠ o.id := by
        by_cases h1 : y.isLabel = o.isLabel
        · exact Or.inr (fun h2 => h ⟨h1, h2⟩)
        · exact Or.inl h1
      rw [applyAll_comm y o hne]
      have := ih (y.applyAll f)
      simpa only [runWrites_cons] using this

theorem runWrites_absorb (a : List Write) : ∀ (b : List Write) (f : Forest),
    (∀ o ∈ a, ∃ o' ∈ b, o'.isLabel = o.isLabel ∧ o'.id = o.id) →
    runWrites (a ++ b) f = runWrites b f := by
  induction a with
  | nil => intro b f _; rfl
  | cons o a ih =>
    intro b f h
    obtain ⟨o', hmem, hl, hi⟩ := h o (List.mem_cons_self _ _)
    obtain ⟨b1, b2, rfl⟩ := List.append_of_mem hmem
    have hstep : runWrites (o :: a ++ (b1 ++ o' :: b2)) f
        = runWrites (a ++ (b1 ++ o' :: b2)) f := by
      have e1 : o :: a ++ (b1 ++ o' :: b2) = (o :: ((a ++ b1) ++ [o'])) ++ b2 := by simp
      have e2 : a ++ (b1 ++ o' :: b2) = ((a ++ b1) ++ [o']) ++ b2 := by simp
      rw [e1, e2, runWrites_append, runWrites_append,
        runWrites_drop_overridden o o' hl hi (a ++ b1) f]
    rw [hstep]
    exact ih _ f (fun x hx => h x (List.mem_cons_of_mem _ hx))

/-- Performing a list of writes twice is performing it once. -/
theorem runWrites_idem (ws : List Write) (f : Forest) :
    runWrites ws (runWrites ws f) = runWrites ws f := by
  rw [← runWrites_append]
  exact runWrites_absorb ws ws f (fun o ho => ⟨o, ho, rfl, rfl⟩)

theorem append_left_inj (s a b : String) (h : s ++ a = s ++ b) : a = b := by
  have := congrArg String.data h
  simp only [String.data_append, List.append_cancel_left_eq] at this
  exact String.ext this

theorem bar_ne_proj (a b : String) : "bar-" ++ a ≠ "proj-bar-" ++ b := by
  intro h
  have := congrArg String.data h
  simp only [String.data_append] at this
  simp at this

theorem txt_ne_proj (a b : String) : "txt-" ++ a ≠ "proj-txt-" ++ b := by
  intro h
  have := congrArg String.data h
  simp only [String.data_append] at this
  simp at this

theorem pctLabel_ne_empty (p : ProgressRecord) : pctLabel p ≠ "" := by
  intro h
  have := congrArg String.length h
  simp only [pctLabel, String.length_append] at this
  have h1 : "/".length = 1 := rfl
  have h2 : "".length = 0 := rfl
  omega

theorem textNode_pctLabel (p : ProgressRecord) :
    textNode (pctLabel p) = .text (pctLabel p) .nil := by
  simp [textNode, pctLabel_ne_empty]

theorem forall_textNode (P : Elem → Prop) (t : String) : (textNode t).Forall P := by
  unfold textNode; split <;> simp [Forest.Forall]

theorem forall_get? (P : Elem → Prop) (f : Forest) : ∀ (q : Path) (e : Elem),
    f.Forall P → f.get? q = some e → P e := by
  induction f with
  | nil => intro q e _ h; simp [Forest.get?] at h
  | text s rest ih =>
    intro q e hf h
    match q with
    | [] => simp [Forest.get?] at h
    | 0 :: _ => simp [Forest.get?] at h
    | (i + 1) :: q => exact ih (i :: q) e hf (by simpa [Forest.get?] using h)
  | elem k a w kids rest ihk ihr =>
    intro q e hf h
    obtain ⟨h0, hk, hr⟩ := hf
    match q with
    | [] => simp [Forest.get?] at h
    | [0] =>
      simp only [Forest.get?, Option.some.injEq] at h
      subst h; exact h0
    | 0 :: j :: q => exact ihk (j :: q) e hk (by simpa [Forest.get?] using h)
    | (i + 1) :: q => exact ihr (i :: q) e hr (by simpa [Forest.get?] using h)

/-- A write holds on every element right after it. -/
theorem applyAll_holds (o : Write) (f : Forest) : (o.applyAll f).Forall o.holdsAt := by
  induction f with
  | nil => trivial
  | text s rest ih => exact ih
  | elem k a w kids rest ihk ihr =>
    simp only [Write.applyAll]
    by_cases h : hasId o.id ⟨k, a, w, kids⟩ = true
    · cases hl : o.isLabel
      · simp only [h, if_true, hl, Bool.false_eq_true, if_false, Forest.Forall]
        exact ⟨fun _ => by simp [hl], ihk, ihr⟩
      · simp only [h, if_true, hl, Forest.Forall]
        exact ⟨fun _ => by simp [hl], forall_textNode _ _, ihr⟩
    · simp only [h, Bool.false_eq_true, if_false, Forest.Forall]
      refine ⟨fun h' => ?_, ihk, ihr⟩
      exact absurd (show hasId o.id ⟨k, a, w, kids⟩ = true from h') h

/-- A write keeps what an earlier write to another property or another id left. -/
theorem applyAll_keeps (o y : Write) (hy : y.isLabel ≠ o.isLabel ∨ y.id ≠ o.id)
    (f : Forest) (hf : f.Forall o.holdsAt) : (y.applyAll f).Forall o.holdsAt := by
  induction f with
  | nil => trivial
  | text s rest ih => exact ih hf
  | elem k a w kids rest ihk ihr =>
    obtain ⟨h0, hk, hr⟩ := hf
    have ihk := ihk hk
    have ihr := ihr hr
    simp only [Write.holdsAt, hasId_mk] at h0
    simp only [Write.applyAll, hasId_mk]
    by_cases h : (a.lookup "id" == some y.id) = true
    · cases hl : y.isLabel
      · simp only [h, if_true, hl, Bool.false_eq_true, if_false, Forest.Forall]
        refine ⟨?_, ihk, ihr⟩
        simp only [Write.holdsAt, hasId_mk]
        intro ho
        have h0 := h0 ho
        cases hol : o.isLabel
        · exfalso
          simp only [beq_iff_eq] at h ho
          rw [h] at ho
          simp only [Option.some.injEq] at ho
          rcases hy with hy | hy
          · exact hy (by rw [hl, hol])
          · exact hy ho
        · simp only [hol, if_true] at h0 ⊢
          rw [h0, applyAll_textNode]
      · simp only [h, if_true, hl, Forest.Forall]
        refine ⟨?_, forall_textNode _ _, ihr⟩
        simp only [Write.holdsAt, hasId_mk]
        intro ho
        have h0 := h0 ho
        cases hol : o.isLabel
        · simpa [hol] using h0
        · exfalso
          simp only [beq_iff_eq] at h ho
          rw [h] at ho
          simp only [Option.some.injEq] at ho
          rcases hy with hy | hy
          · exact hy (by rw [hl, hol])
          · exact hy ho
    · simp only [h, Bool.false_eq_true, if_false, Forest.Forall]
      refine ⟨?_, ihk, ihr⟩
      simp only [Write.holdsAt, hasId_mk]
      intro ho
      have h0 := h0 ho
      cases hol : o.isLabel
      · simpa [hol] using h0
      · simp only [hol, if_true] at h0 ⊢
        rw [h0, applyAll_textNode]

theorem lastFor_some (items : List ProgressRecord) (i : String) (r : ProgressRecord)
    (h : lastFor items i = some r) :
    r.id = i ∧ ∃ init tail, items = init ++ r :: tail ∧ ∀ p ∈ tail, p.id ≠ i := by
  unfold lastFor at h
  rw [List.find?_eq_some] at h
  obtain ⟨hr, as, bs, hrev, hno⟩ := h
  refine ⟨by simpa using hr, bs.reverse, as.reverse, ?_, ?_⟩
  · have := congrArg List.reverse hrev
    simpa using this
  · intro p hp
    have := hno p (List.mem_reverse.1 hp)
    simpa using this

/-- A write keeps what the same write, or a write to another property or another id,
left. -/
theorem applyAll_keeps_same (o y : Write)
    (hy : y = o ∨ y.isLabel ≠ o.isLabel ∨ y.id ≠ o.id)
    (f : Forest) (hf : f.Forall o.holdsAt) : (y.applyAll f).Forall o.holdsAt := by
  rcases hy with rfl | hy
  · exact applyAll_holds y f
  · exact applyAll_keeps o y hy f hf

theorem runWrites_keeps (o : Write) (post : List Write) : ∀ (f : Forest),
    (∀ y ∈ post, y = o ∨ y.isLabel ≠ o.isLabel ∨ y.id ≠ o.id) → f.Forall o.holdsAt →
    (runWrites post f).Forall o.holdsAt := by
  induction post with
  | nil => intro f _ h; exact h
  | cons y post ih =>
    intro f hp h
    exact ih _ (fun z hz => hp z (List.mem_cons_of_mem _ hz))
      (applyAll_keeps_same o y (hp y (List.mem_cons_self _ _)) f h)

/-- A write holds at the end when only the same write, or writes to another property or
another id, follow it. -/
theorem runWrites_last (o : Write) (pre post : List Write) (f : Forest)
    (hp : ∀ y ∈ post, y = o ∨ y.isLabel ≠ o.isLabel ∨ y.id ≠ o.id) :
    (runWrites (pre ++ o :: post) f).Forall o.holdsAt := by
  rw [runWrites_append, runWrites_cons]
  exact runWrites_keeps o post _ hp (applyAll_holds o _)

theorem progressWrites_append (css : StyleEngine) (a b : List ProgressRecord) :
    progressWrites css (a ++ b) = progressWrites css a ++ progressWrites css b := by
  induction a with
  | nil => rfl
  | cons p a ih => simp [progressWrites, ih]

/-- The writes of one pass: a width write for `bar-` or `proj-bar-` with the stored text
of an accepted width, or a label write for `txt-` or `proj-txt-`. -/
theorem mem_recordWrites (css : StyleEngine) (p : ProgressRecord) (o : Write)
    (h : o ∈ recordWrites css p) :
    (o.isLabel = false ∧ o.id = "bar-" ++ p.id ∧ css.width (pctWidth p) = some o.val)
    ∨ (o.isLabel = true ∧ o.id = "txt-" ++ p.id ∧ o.val = pctLabel p)
    ∨ (o.isLabel = false ∧ o.id = "proj-bar-" ++ p.id ∧ css.width (pctWidth p) = some o.val)
    ∨ (o.isLabel = true ∧ o.id = "proj-txt-" ++ p.id ∧ o.val = pctLabel p) := by
  simp only [recordWrites, widthWrites, List.mem_append, List.mem_singleton] at h
  cases hw : css.width (pctWidth p) with
  | none =>
    simp only [hw, List.not_mem_nil, false_or, or_false] at h
    rcases h with rfl | rfl
    · exact Or.inr (Or.inl ⟨rfl, rfl, rfl⟩)
    · exact Or.inr (Or.inr (Or.inr ⟨rfl, rfl, rfl⟩))
  | some v =>
    simp only [hw, List.mem_singleton] at h
    rcases h with ((rfl | rfl) | rfl) | rfl
    · exact Or.inl ⟨rfl, rfl, rfl⟩
    · exact Or.inr (Or.inl ⟨rfl, rfl, rfl⟩)
    · exact Or.inr (Or.inr (Or.inl ⟨rfl, rfl, rfl⟩))
    · exact Or.inr (Or.inr (Or.inr ⟨rfl, rfl, rfl⟩))

theorem write_ext (a b : Write) (h1 : a.isLabel = b.isLabel) (h2 : a.id = b.id)
    (h3 : a.val = b.val) : a = b := by
  cases a; cases b; simp_all

/-- Two writes of one pass are the same write or go to different properties or ids. -/
theorem recordWrites_distinct (css : StyleEngine) (p : ProgressRecord) (o y : Write)
    (ho : o ∈ recordWrites css p) (hy : y ∈ recordWrites css p) :
    y = o ∨ y.isLabel ≠ o.isLabel ∨ y.id ≠ o.id := by
  have k1 := bar_ne_proj p.id p.id
  have k2 := txt_ne_proj p.id p.id
  rcases mem_recordWrites css p o ho with ⟨a1, a2, a3⟩ | ⟨a1, a2, a3⟩ | ⟨a1, a2, a3⟩ | ⟨a1, a2, a3⟩ <;>
  rcases mem_recordWrites css p y hy with ⟨b1, b2, b3⟩ | ⟨b1, b2, b3⟩ | ⟨b1, b2, b3⟩ | ⟨b1, b2, b3⟩
  · left; exact write_ext _ _ (by rw [a1, b1]) (by rw [a2, b2])
      (by rw [a3] at b3; exact (Option.some.inj b3).symm)
  · right; left; rw [a1, b1]; simp
  · right; right; rw [a2, b2]; exact k1.symm
  · right; left; rw [a1, b1]; simp
  · right; left; rw [a1, b1]; simp
  · left; exact write_ext _ _ (by rw [a1, b1]) (by rw [a2, b2]) (by rw [a3, b3])
  · right; left; rw [a1, b1]; simp
  · right; right; rw [a2, b2]; exact k2.symm
  · right; right; rw [a2, b2]; exact k1
  · right; left; rw [a1, b1]; simp
  · left; exact write_ext _ _ (by rw [a1, b1]) (by rw [a2, b2])
      (by rw [a3] at b3; exact (Option.some.inj b3).symm)
  · right; left; rw [a1, b1]; simp
  · right; left; rw [a1, b1]; simp
  · right; right; rw [a2, b2]; exact k2
  · right; left; rw [a1, b1]; simp
  · left; exact write_ext _ _ (by rw [a1, b1]) (by rw [a2, b2]) (by rw [a3, b3])

/-- The writes of records with another id touch none of the four elements of `r`. -/
theorem progressWrites_miss (css : StyleEngine) (r : ProgressRecord) (o : Write)
    (ho : o ∈ recordWrites css r) (tail : List ProgressRecord)
    (h : ∀ p ∈ tail, p.id ≠ r.id) :
    ∀ y ∈ progressWrites css tail, y.isLabel ≠ o.isLabel ∨ y.id ≠ o.id := by
  induction tail with
  | nil => intro y hy; simp [progressWrites] at hy
  | cons p tail ih =>
    intro y hy
    simp only [progressWrites, List.mem_append] at hy
    rcases hy with hy | hy
    · have hp : p.id ≠ r.id := h p (List.mem_cons_self _ _)
      have k1 : "bar-" ++ p.id ≠ "bar-" ++ r.id := fun e => hp (append_left_inj _ _ _ e)
      have k2 : "txt-" ++ p.id ≠ "txt-" ++ r.id := fun e => hp (append_left_inj _ _ _ e)
      have k3 : "proj-bar-" ++ p.id ≠ "proj-bar-" ++ r.id :=
        fun e => hp (append_left_inj _ _ _ e)
      have k4 : "proj-txt-" ++ p.id ≠ "proj-txt-" ++ r.id :=
        fun e => hp (append_left_inj _ _ _ e)
      have k5 := bar_ne_proj p.id r.id
      have k6 := (bar_ne_proj r.id p.id).symm
      have k7 := txt_ne_proj p.id r.id
      have k8 := (txt_ne_proj r.id p.id).symm
      rcases mem_recordWrites css r o ho with
        ⟨a1, a2, _⟩ | ⟨a1, a2, _⟩ | ⟨a1, a2, _⟩ | ⟨a1, a2, _⟩ <;>
      rcases mem_recordWrites css p y hy with
        ⟨b1, b2, _⟩ | ⟨b1, b2, _⟩ | ⟨b1, b2, _⟩ | ⟨b1, b2, _⟩ <;>
      rw [a1, a2, b1, b2] <;> simp_all
    · exact ih (fun q hq => h q (List.mem_cons_of_mem _ hq)) y hy

theorem lastFor_of_mem (items : List ProgressRecord) (r0 : ProgressRecord) (h : r0 ∈ items) :
    ∃ r, lastFor items r0.id = some r := by
  unfold lastFor
  cases hf : items.reverse.find? (fun p => p.id == r0.id) with
  | some r => exact ⟨r, rfl⟩
  | none =>
    rw [List.find?_eq_none] at hf
    have := hf r0 (List.mem_reverse.2 h)
    simp at this

/-- Each write of the last record for an id holds on every element at the end. -/
theorem progress_values (css : StyleEngine) (items : List ProgressRecord) (i : String)
    (r : ProgressRecord) (h : lastFor items i = some r) (f : Forest) (o : Write)
    (ho : o ∈ recordWrites css r) :
    (runWrites (progressWrites css items) f).Forall o.holdsAt := by
  obtain ⟨hid, init, tail, rfl, htail⟩ := lastFor_some items i r h
  subst hid
  obtain ⟨a, b, hab⟩ := List.append_of_mem ho
  have e : progressWrites css (init ++ r :: tail)
      = (progressWrites css init ++ a) ++ o :: (b ++ progressWrites css tail) := by
    simp [progressWrites_append, progressWrites, hab]
  rw [e]
  apply runWrites_last
  intro y hy
  rcases List.mem_append.1 hy with hy | hy
  · exact recordWrites_distinct css r o y ho (by rw [hab]; simp [hy])
  · exact Or.inr (progressWrites_miss css r o ho tail htail y hy)

theorem patchItems_map_some (css : StyleEngine) (items : List ProgressRecord) :
    ∀ (f : Forest), patchItems css f (items.map some) = (patchProgress css f items, false) := by
  induction items with
  | nil => intro f; rfl
  | cons p ps ih => intro f; simp only [List.map, patchItems, ih]; rfl

theorem patchItems_fst (css : StyleEngine) (items : List (Option ProgressRecord)) :
    ∀ (f : Forest), (patchItems css f items).1 = patchProgress css f (leadingRecords items) := by
  induction items with
  | nil => intro f; rfl
  | cons x xs ih =>
    intro f
    cases x with
    | none => rfl
    | some p => simp only [patchItems, leadingRecords, ih]; rfl

theorem refreshProgress_ok (css : StyleEngine) (pg : Page) (ts : String) (res : Response)
    (items : List ProgressRecord) (hok : res.ok = true)
    (hjson : res.json = some (items.map some)) :
    refreshProgress css pg ts (.responded res)
      = ⟨patchProgress css pg.dom items, [.fetch (getRequest (progressUrl ts))],
          .fulfilled⟩ := by
  simp [refreshProgress, hok, hjson, patchItems_map_some]

/-- C7 (amended): on a page whose element ids are unique, after `refreshProgress` has
received a successful response carrying the list of records `items`, for each record of
the list and the last record `r` with the same id: every element with id `txt-<id>` or
`proj-txt-<id>` holds the single text `<done>/<total> (<pct>%)`, and, when the browser
takes `<pct>%` for a width, every element with id `bar-<id>` or `proj-bar-<id>` has the
width the browser stores for it, which is `<pct>%` itself for a whole percentage from 0
to 100; the values are those of `r`, rendered as the template literals render them.
Whichever of the four elements are absent, the run ends normally and logs no error. -/
theorem C7_progress_patch (css : StyleEngine) (pg : Page) (ts : String) (res : Response)
    (items : List ProgressRecord) (r0 : ProgressRecord)
    (hok : res.ok = true) (hjson : res.json = some (items.map some))
    (hu : uniqueIds pg.dom) (hmem : r0 ∈ items) :
    (refreshProgress css pg ts (.responded res)).settled = .fulfilled
    ∧ (∀ msg, Effect.consoleError msg ∉ (refreshProgress css pg ts (.responded res)).effects)
    ∧ ∃ r, lastFor items r0.id = some r
      ∧ ∀ (q : Path) (e : Elem),
          (refreshProgress css pg ts (.responded res)).dom.get? q = some e →
          (∀ w, css.width (r.pct ++ "%") = some w →
              (e.attr "id" = some ("bar-" ++ r0.id)
                ∨ e.attr "id" = some ("proj-bar-" ++ r0.id)) → e.width = w)
          ∧ (∀ n : Nat, n ≤ 100 → r.pct = toString n →
              (e.attr "id" = some ("bar-" ++ r0.id)
                ∨ e.attr "id" = some ("proj-bar-" ++ r0.id)) → e.width = r.pct ++ "%")
          ∧ ((e.attr "id" = some ("txt-" ++ r0.id) ∨ e.attr "id" = some ("proj-txt-" ++ r0.id))
              → e.kids = .text (r.done ++ "/" ++ r.total ++ " (" ++ r.pct ++ "%)") .nil) := by
  rw [refreshProgress_ok css pg ts res items hok hjson]
  refine ⟨rfl, fun msg hm => by simp at hm, ?_⟩
  obtain ⟨r, hr⟩ := lastFor_of_mem items r0 hmem
  have hid : r.id = r0.id := (lastFor_some items _ r hr).1
  refine ⟨r, hr, ?_⟩
  intro q e hq
  simp only [patchProgress_eq_runWrites css items pg.dom hu] at hq
  have hv := fun o ho =>
    forall_get? _ _ q e (progress_values css items r0.id r hr pg.dom o ho) hq
  have hwidth : ∀ w, css.width (r.pct ++ "%") = some w →
      (e.attr "id" = some ("bar-" ++ r0.id) ∨ e.attr "id" = some ("proj-bar-" ++ r0.id)) →
      e.width = w := by
    intro w hw hidw
    have hw' : css.width (pctWidth r) = some w := hw
    have h1 := hv ⟨false, "bar-" ++ r.id, w⟩ (by simp [recordWrites, widthWrites, hw'])
    have h3 := hv ⟨false, "proj-bar-" ++ r.id, w⟩ (by simp [recordWrites, widthWrites, hw'])
    simp only [Write.holdsAt, hasId, beq_iff_eq, Bool.false_eq_true, if_false, hid] at h1 h3
    rcases hidw with h | h
    · exact h1 h
    · exact h3 h
  refine ⟨hwidth, ?_, ?_⟩
  · intro n hn hp hidw
    have := css.percent n hn
    rw [← hp] at this
    exact hwidth _ this hidw
  · have h2 := hv ⟨true, "txt-" ++ r.id, pctLabel r⟩ (by simp [recordWrites])
    have h4 := hv ⟨true, "proj-txt-" ++ r.id, pctLabel r⟩ (by simp [recordWrites])
    simp only [Write.holdsAt, hasId, beq_iff_eq, if_true, hid, textNode_pctLabel] at h2 h4
    rintro (h | h)
    · exact h2 h
    · exact h4 h

/-- An assignment of a whole percentage from 0 to 100 stores it as written. -/
theorem assignWidth_percent (css : StyleEngine) (n : Nat) (hn : n ≤ 100) :
    assignWidth css (toString n ++ "%") = setWidth (toString n ++ "%") := by
  funext e
  simp [assignWidth, css.percent n hn]

/-- For the record `p1` every browser gives the pass of the loop the same result. -/
theorem patchProgress_p1 (css : StyleEngine) (f : Forest) :
    patchProgress css f [recordP1] = patchProgress strictWidths f [recordP1] := by
  have h : pctWidth recordP1 = toString 30 ++ "%" := by decide
  simp only [patchProgress, List.foldl, patchRecord, h, assignWidth_percent _ 30 (by decide)]

/-- The record `p1` with 3 of 10 done on a dashboard without Projects-table row. -/
theorem C7_progress_patch_witness :
    uniqueIds progressDom
    ∧ ((refreshProgress strictWidths ⟨progressDom, .null, ""⟩ "0"
          (.responded ⟨true, "", some [some recordP1]⟩)).dom.get? [0]).map (fun e => e.width)
        = some "30%"
    ∧ ((refreshProgress strictWidths ⟨progressDom, .null, ""⟩ "0"
          (.responded ⟨true, "", some [some recordP1]⟩)).dom.get? [1]).map (fun e => e.kids)
        = some (.text "3/10 (30%)" .nil)
    ∧ (refreshProgress strictWidths ⟨progressDom, .null, ""⟩ "0"
          (.responded ⟨true, "", some [some recordP1]⟩)).settled = .fulfilled :=
  ⟨by decide, by decide, by decide,
    (C7_progress_patch strictWidths ⟨progressDom, .null, ""⟩ "0"
      ⟨true, "", some [some recordP1]⟩ [recordP1] recordP1 rfl rfl (by decide)
      (List.mem_singleton_self _)).1⟩

/-- C7 (counterexample): two elements share the id `bar-p1`, the first inside the label
`txt-p1`.  The refresh sets the width of the first, which the label update then removes;
the element `bar-p1` of the resulting page has no width. -/
theorem C7_duplicate_id_not_updated :
    ¬ uniqueIds dupDom
    ∧ ∀ css, (refreshProgress css ⟨dupDom, .null, ""⟩ "0"
          (.responded ⟨true, "", some [some recordP1]⟩)).dom
        = .elem 1 [("id", "txt-p1")] "" (.text "3/10 (30%)" .nil)
            (.elem 3 [("id", "bar-p1")] "" .nil .nil)
      ∧ ((refreshProgress css ⟨dupDom, .null, ""⟩ "0"
          (.responded ⟨true, "", some [some recordP1]⟩)).dom.find (hasId "bar-p1")).map
          (fun e => e.width) = some "" := by
  refine ⟨by decide, fun css => ?_⟩
  have h := refreshProgress_ok css ⟨dupDom, .null, ""⟩ "0" ⟨true, "", some [some recordP1]⟩
    [recordP1] rfl rfl
  rw [h, patchProgress_p1 css]
  decide

theorem findPath_cons_hit (x : String) (c : Elem) (rest : Forest) (hc : hasId x c = true) :
    (Forest.cons c rest).findPath (hasId x) = some [0] := by
  cases c
  simp only [Forest.cons, Forest.findPath] at hc ⊢
  simp [hc]

/-- After `replaceWith`, the lookup by id returns the place of the anchor again. -/
theorem findPath_replace (x : String) (c : Elem) (hc : hasId x c = true) (f : Forest) :
    ∀ (p : Path), f.findPath (hasId x) = some p →
      (f.modifyAt (fun _ => c) p).findPath (hasId x) = some p := by
  induction f with
  | nil => intro p h; simp [Forest.findPath] at h
  | text s rest ih =>
    intro p h
    simp only [Forest.findPath, Option.map_eq_some'] at h
    obtain ⟨p', h1, rfl⟩ := h
    obtain ⟨e, he, _⟩ := findPath_get? _ _ _ h1
    rw [modifyAt_bump_text _ _ _ _ e he]
    simp only [Forest.findPath, ih p' h1, Option.map_some']
  | elem k a w kids rest ihk ihr =>
    intro p h
    simp only [Forest.findPath] at h
    split at h
    · cases h
      exact findPath_cons_hit x c rest hc
    · rename_i hh
      split at h
      · rename_i p' hk
        cases h
        obtain ⟨e, he, _⟩ := findPath_get? _ _ _ hk
        rw [modifyAt_zero_cons _ _ _ _ _ _ _ e he]
        have hh' : ¬ hasId x ⟨k, a, w, kids.modifyAt (fun _ => c) p'⟩ = true := hh
        simp only [Forest.findPath, hh', Bool.false_eq_true, if_false, ihk p' hk]
      · rename_i hk
        simp only [Option.map_eq_some'] at h
        obtain ⟨p', h1, rfl⟩ := h
        obtain ⟨e, he, _⟩ := findPath_get? _ _ _ h1
        rw [modifyAt_bump _ _ _ _ _ _ _ e he]
        simp only [Forest.findPath, hh, Bool.false_eq_true, if_false, hk, ihr p' h1, Option.map_some']

theorem modifyAt_const_twice (c : Elem) (f : Forest) : ∀ (p : Path),
    (f.modifyAt (fun _ => c) p).modifyAt (fun _ => c) p = f.modifyAt (fun _ => c) p := by
  induction f with
  | nil => intro p; rfl
  | text s rest ih =>
    intro p
    match p with
    | [] => rfl
    | 0 :: _ => rfl
    | (i + 1) :: p => simp only [Forest.modifyAt, ih]
  | elem k a w kids rest ihk ihr =>
    intro p
    match p with
    | [] => rfl
    | [0] => cases c; rfl
    | 0 :: j :: p => simp only [Forest.modifyAt, ihk]
    | (i + 1) :: p => simp only [Forest.modifyAt, ihr]

theorem find_hasId (x : String) (f : Forest) (c : Elem) (h : f.find (hasId x) = some c) :
    hasId x c = true := by
  unfold Forest.find at h
  cases hp : f.findPath (hasId x) with
  | none => simp [hp] at h
  | some p =>
    obtain ⟨e, he, hP⟩ := findPath_get? _ _ _ hp
    rw [hp] at h
    simp only [Option.some_bind, he, Option.some.injEq] at h
    subst h; exact hP

/-- Swapping the anchor for the element parsed from the same body a second time changes
nothing, and the anchor is found at the same place. -/
theorem swapAnchor_idem (parseHTML : String → Forest) (dom : Forest) (anchor : Path)
    (anchorId html : String) (h : dom.findPath (hasId anchorId) = some anchor) :
    (swapAnchor parseHTML dom anchor anchorId html).findPath (hasId anchorId) = some anchor
    ∧ swapAnchor parseHTML (swapAnchor parseHTML dom anchor anchorId html) anchor anchorId html
      = swapAnchor parseHTML dom anchor anchorId html := by
  unfold swapAnchor
  cases hc : (parseHTML html).find (hasId anchorId) with
  | none => simp [h]
  | some c =>
    simp only [Forest.replaceWith]
    exact ⟨findPath_replace _ c (find_hasId _ _ _ hc) dom anchor h,
      modifyAt_const_twice c dom anchor⟩

theorem refreshWidgets_idem (parseHTML : String → Forest) (pg : Page) (ts ts2 : String)
    (out : FetchOutcome) :
    (refreshWidgets parseHTML { pg with dom := (refreshWidgets parseHTML pg ts out).dom }
      ts2 out).dom = (refreshWidgets parseHTML pg ts out).dom := by
  unfold refreshWidgets
  cases h : pg.dom.findPath (hasId "rightAside") with
  | none => simp [h]
  | some aside =>
    cases out with
    | rejected => simp [h]
    | responded res =>
      obtain ⟨h1, h2⟩ := swapAnchor_idem parseHTML pg.dom aside "rightAside" res.text h
      simp only [h1, h2]

theorem refreshWorkload_idem (parseHTML : String → Forest) (pg : Page) (ts ts2 : String)
    (out : FetchOutcome) :
    (refreshWorkload parseHTML { pg with dom := (refreshWorkload parseHTML pg ts out).dom }
      ts2 out).dom = (refreshWorkload parseHTML pg ts out).dom := by
  unfold refreshWorkload
  cases out with
  | rejected => rfl
  | responded res =>
    cases hok : res.ok with
    | false => simp [hok]
    | true =>
      cases h : pg.dom.findPath (hasId "leftAside") with
      | none => simp [hok, h]
      | some left =>
        obtain ⟨h1, h2⟩ := swapAnchor_idem parseHTML pg.dom left "leftAside" res.text h
        simp [hok, h, h1, h2]

theorem patchProgress_idem (css : StyleEngine) (dom : Forest) (items : List ProgressRecord)
    (hu : uniqueIds dom) :
    patchProgress css (patchProgress css dom items) items = patchProgress css dom items := by
  have h1 := patchProgress_eq_runWrites css items dom hu
  have hu' : uniqueIds (patchProgress css dom items) := by
    rw [h1]; exact uniqueIds_runWrites _ _ hu
  rw [patchProgress_eq_runWrites css items _ hu', h1, runWrites_idem]

/-- C10 (amended): applying a refresher's update for the same response twice in
succession yields the same DOM as applying it once: for `refreshWidgets` and
`refreshWorkload` on every page `pg`, and for `refreshProgress` (in particular for the
patch by any list of records, repeated ids included) on every page `up` whose element
ids are unique. -/
theorem C10_refreshers_idempotent (parseHTML : String → Forest) (css : StyleEngine)
    (pg up : Page) (ts ts2 : String) (out : FetchOutcome) (items : List ProgressRecord)
    (hu : uniqueIds up.dom) :
    (refreshWidgets parseHTML { pg with dom := (refreshWidgets parseHTML pg ts out).dom }
        ts2 out).dom = (refreshWidgets parseHTML pg ts out).dom
    ∧ (refreshWorkload parseHTML { pg with dom := (refreshWorkload parseHTML pg ts out).dom }
        ts2 out).dom = (refreshWorkload parseHTML pg ts out).dom
    ∧ (refreshProgress css { up with dom := (refreshProgress css up ts out).dom } ts2 out).dom
        = (refreshProgress css up ts out).dom
    ∧ patchProgress css (patchProgress css up.dom items) items
        = patchProgress css up.dom items := by
  refine ⟨refreshWidgets_idem parseHTML pg ts ts2 out,
    refreshWorkload_idem parseHTML pg ts ts2 out, ?_, patchProgress_idem css up.dom items hu⟩
  unfold refreshProgress
  cases out with
  | rejected => rfl
  | responded res =>
    cases hok : res.ok with
    | false => simp [hok]
    | true =>
      cases hj : res.json with
      | none => simp [hok, hj]
      | some its =>
        simp [hok, hj, patchItems_fst, patchProgress_idem css up.dom (leadingRecords its) hu]

/-- Patching the dashboard card twice with a list that repeats `p1`. -/
theorem C10_refreshers_idempotent_witness :
    uniqueIds progressDom
    ∧ patchProgress strictWidths (patchProgress strictWidths progressDom [recordP1, recordP1])
          [recordP1, recordP1]
        = patchProgress strictWidths progressDom [recordP1, recordP1] :=
  ⟨by decide,
    (C10_refreshers_idempotent errorParse strictWidths asidePage ⟨progressDom, .null, ""⟩
      "0" "1" (.responded ⟨true, errorHtml, some [some recordP1]⟩) [recordP1, recordP1]
      (by decide)).2.2.2⟩

/-- C10 (counterexample): on the page with two elements of id `bar-p1`, patching with
the same record a second time reaches the second `bar-p1`, which the first patch left
untouched. -/
theorem C10_patch_twice_differs :
    ¬ uniqueIds dupDom
    ∧ ∀ css, patchProgress css (patchProgress css dupDom [recordP1]) [recordP1]
        = .elem 1 [("id", "txt-p1")] "" (.text "3/10 (30%)" .nil)
            (.elem 3 [("id", "bar-p1")] "30%" .nil .nil)
      ∧ patchProgress css (patchProgress css dupDom [recordP1]) [recordP1]
        ≠ patchProgress css dupDom [recordP1] := by
  refine ⟨by decide, fun css => ?_⟩
  rw [patchProgress_p1 css, patchProgress_p1 css]
  decide

end ProjectManager
